import Mathlib

/-!
Verification development for the structural-traversal core
(`lib/sqlalchemy/sql/traversals.py`): cache-key generation, the structural
comparator, and the structural copier, shallowly embedded over an explicit
heap of nodes.

Modelling conventions:
* Nodes live in a heap (`Heap := List NodeData`); a node's identity (Python
  `id(self)`) is its index in the list.  Well-formed object graphs are built
  bottom-up, so children appear at smaller indices than their parents.
* Python `None` is `AttrVal.vnone` / `Option.none`; Python truthiness is
  `AttrVal.truthy`.
* Recursive walks take an explicit fuel argument so that every definition is
  executable; the entry points pass a fuel that suffices for every
  well-formed heap (the `anon_map` revisit check bounds the recursion depth
  of the Python code by the number of distinct nodes).  Running out of fuel
  is reported conservatively (`none` results / the no-cache flag).
* Exceptions raised by the Python code (e.g. `visit_unknown_structure` in
  the comparator raises `NotImplementedError`) are modelled as `none`
  results.
-/

/-- Modelled from the spec: operator tags (module `operators`, outside the
unit under study) are opaque function objects compared by identity and
classified by the predicates `operators.is_commutative` and
`operators.is_associative`; we carry the two classification bits on the
tag itself. -/
structure Op where
  name : String := ""
  commutative : Bool := false
  associative : Bool := false
deriving Repr, DecidableEq

/-- Traversal kinds (the `InternalTraversal` symbols used by the claims):
`dp_string` / `dp_plain_obj` (CACHE_IN_PLACE scalars), `dp_operator`,
`dp_clauseelement`, `dp_clauseelement_list`, `dp_clauseelement_tuple`,
`dp_clauseelement_unordered_set`, and `dp_unknown_structure`. -/
inductive TKind where
  | tstr
  | plainObj
  | oper
  | clauseelement
  | ceList
  | ceTuple
  | ceSet
  | unknownStructure
deriving Repr, DecidableEq

/-- An attribute's live value: Python `None`, a plain scalar, an operator
tag, a child node reference, or a collection of child node references
(list / tuple / set, the kind tag of the schema decides which). -/
inductive AttrVal where
  | vnone
  | obj (v : String)
  | op (o : Op)
  | node (id : Nat)
  | nodes (ids : List Nat)
deriving Repr, DecidableEq

/-- Python truthiness of an attribute value (`elif obj:`). -/
def AttrVal.truthy : AttrVal → Bool
  | .vnone => false
  | .obj v => decide (v ≠ "")
  | .op _ => true
  | .node _ => true
  | .nodes ids => decide (ids ≠ [])

/-- One node of the object graph: its `__visit_name__`, its class token,
its traversal schema (`_traverse_internals` / `_cache_key_traversal`;
`none` models a class that declares neither, i.e. the NO_CACHE case), and
its attribute dictionary.  `isBind` marks parameter-placeholder leaves
(`BindParameter`, whose key-generation lives outside the unit under study
and is modelled from the spec). -/
structure NodeData where
  visitName : String := "thing"
  clsName : String := "T"
  schema : Option (List (String × TKind)) := some []
  attrs : List (String × AttrVal) := []
  isBind : Bool := false
  bindKey : String := ""
deriving Repr, DecidableEq

/-- Attribute lookup (`operator.attrgetter`); a missing attribute is
modelled as `None`. -/
def NodeData.attr (nd : NodeData) (name : String) : AttrVal :=
  (nd.attrs.lookup name).getD .vnone

/-- The heap: node identity is the index in this list. -/
abbrev Heap := List NodeData

/-- One element of a cache-key tuple: an anonymized id / attribute name /
plain string, a class token, an operator tag, Python `None`, a raw
attribute value (a defensive case: CACHE_IN_PLACE on a non-scalar), or a
nested tuple.  Tuples are encoded as cons cells (`knil` / `kcons`) so that
equality stays structurally decidable; `ktup` below builds a tuple from a
list. -/
inductive KElem where
  | kstr (s : String)
  | kcls (c : String)
  | kop (o : Op)
  | knone
  | kraw (a : AttrVal)
  | knil
  | kcons (head tail : KElem)
deriving Repr, DecidableEq

/-- Build a key tuple from its element list. -/
def ktup (es : List KElem) : KElem :=
  es.foldr .kcons .knil

/-- The `anon_map`: an insertion-ordered dict from node identity to the
sequential string id, the running counter (`anon_map.index`), and the
presence of the NO_CACHE sentinel key, carried as a separate flag. -/
structure AnonMap where
  map : List (Nat × String) := []
  index : Nat := 0
  noCache : Bool := false
deriving Repr, DecidableEq

def AnonMap.find? (am : AnonMap) (n : Nat) : Option String :=
  am.map.lookup n

/-- `anon_map[NO_CACHE] = True`. -/
def AnonMap.setNoCache (am : AnonMap) : AnonMap :=
  { am with noCache := true }

/-- First component of a child cache key (they all start with
`(id_, class)`, so Python's `sorted` over them is decided by the anon-id
string). -/
def keyHeadStr : KElem → String
  | .kcons (.kstr s) _ => s
  | _ => ""

def insertSorted (k : KElem) : List KElem → List KElem
  | [] => [k]
  | x :: xs =>
    if keyHeadStr k ≤ keyHeadStr x then k :: x :: xs else x :: insertSorted k xs

/-- `sorted(cache_keys)` in `visit_clauseelement_unordered_set`: Python
sorts the child key tuples lexicographically; since every child key starts
with its own (distinct) anon-id string, the head string decides. -/
def sortKeys : List KElem → List KElem
  | [] => []
  | x :: xs => insertSorted x (sortKeys xs)

/-- CACHE_IN_PLACE embeds the raw value into the key tuple. -/
def cacheInPlaceElem : AttrVal → KElem
  | .obj v => .kstr v
  | .op o => .kop o
  | other => .kraw other

/-- The type of the recursive child call: given a child identity, the
current anon map and bindparams list, produce the child's optional key and
the updated state. -/
abbrev ChildKeyFn := Nat → AnonMap → List Nat → Option KElem × AnonMap × List Nat

/-- Child keys of a clauseelement list / tuple / set attribute, in
element order (a `None` child key is embedded as Python `None`). -/
def genKeyList (childKey : ChildKeyFn) :
    List Nat → AnonMap → List Nat → List KElem × AnonMap × List Nat
  | [], am, bp => ([], am, bp)
  | c :: rest, am, bp =>
    let r := childKey c am bp
    let r2 := genKeyList childKey rest r.2.1 r.2.2
    (r.1.getD .knone :: r2.1, r2.2.1, r2.2.2)

/-- One step of the dispatch loop of `_gen_cache_key`: handle a single
`(attrname, kind)` schema entry — skip `None` attributes, then dispatch by
traversal kind, appending the `(attrname, fragment)` pair to the
accumulated result tuple. -/
def genKeyAttr1 (childKey : ChildKeyFn) (nd : NodeData) (aname : String)
    (kind : TKind) (acc : List KElem) (am : AnonMap) (bp : List Nat) :
    List KElem × AnonMap × List Nat :=
  match nd.attr aname with
  | .vnone => (acc, am, bp)
  | obj =>
    match kind with
    | .clauseelement =>
      -- CALL_GEN_CACHE_KEY: only the `is not None` guard applies.
      (match obj with
       | .node c =>
         let r := childKey c am bp
         (acc ++ [.kstr aname, r.1.getD .knone], r.2.1, r.2.2)
       | _ =>
         -- a non-node value has no `_gen_cache_key`: Python raises;
         -- modelled conservatively as uncacheable.
         (acc, am.setNoCache, bp))
    | .tstr | .plainObj =>
      -- CACHE_IN_PLACE, under the `elif obj:` truthiness guard.
      if obj.truthy then
        (acc ++ [.kstr aname, cacheInPlaceElem obj], am, bp)
      else (acc, am, bp)
    | .oper =>
      if obj.truthy then
        (acc ++ [.kstr aname, cacheInPlaceElem obj], am, bp)
      else (acc, am, bp)
    | .ceList | .ceTuple =>
      (match obj with
       | .nodes ids =>
         if ids.isEmpty then (acc, am, bp)
         else
           let r := genKeyList childKey ids am bp
           (acc ++ [.kstr aname, ktup r.1], r.2.1, r.2.2)
       | _ => (acc, am.setNoCache, bp))
    | .ceSet =>
      (match obj with
       | .nodes ids =>
         if ids.isEmpty then (acc, am, bp)
         else
           let r := genKeyList childKey ids am bp
           (acc ++ [.kstr aname, ktup (sortKeys r.1)], r.2.1, r.2.2)
       | _ => (acc, am.setNoCache, bp))
    | .unknownStructure =>
      -- `visit_unknown_structure`: sets NO_CACHE, contributes nothing;
      -- reached only under the `elif obj:` truthiness guard.
      if obj.truthy then (acc, am.setNoCache, bp)
      else (acc, am, bp)

/-- The dispatch loop of `_gen_cache_key`: walk the schema entries in
order, threading the accumulated tuple, the anon map and the bindparams
list. -/
def genKeyAttrs (childKey : ChildKeyFn) (nd : NodeData) :
    List (String × TKind) → List KElem → AnonMap → List Nat →
    List KElem × AnonMap × List Nat
  | [], acc, am, bp => (acc, am, bp)
  | (aname, kind) :: rest, acc, am, bp =>
    let r := genKeyAttr1 childKey nd aname kind acc am bp
    genKeyAttrs childKey nd rest r.1 r.2.1 r.2.2

/-- `HasCacheKey._gen_cache_key(self, anon_map, bindparams)`.  Returns the
optional key, the updated anon map and the updated bindparams list.  Fuel
is structural; `h.length + 1` suffices because each nested call either
returns via the revisit check or first inserts a fresh identity. -/
def genCacheKey (h : Heap) : Nat → Nat → AnonMap → List Nat →
    Option KElem × AnonMap × List Nat
  | 0, _, am, bp => (none, am.setNoCache, bp)
  | fuel + 1, n, am, bp =>
    match h.get? n with
    | none => (none, am.setNoCache, bp)
    | some nd =>
      match am.find? n with
      | some id_ => (some (ktup [.kstr id_, .kcls nd.clsName]), am, bp)
      | none =>
        let id_ := toString am.index
        let am1 : AnonMap := ⟨(n, id_) :: am.map, am.index + 1, am.noCache⟩
        if nd.isBind then
          -- Modelled from the spec: `BindParameter._gen_cache_key` (in
          -- `elements.py`, outside the unit under study) appends the
          -- placeholder to the shared list on first visit and returns a
          -- tuple starting with (id, class) plus its stable key.
          (some (ktup [.kstr id_, .kcls nd.clsName, .kstr nd.bindKey]),
            am1, bp ++ [n])
        else
          match nd.schema with
          | none => (none, am1.setNoCache, bp)
          | some attrs =>
            let r := genKeyAttrs (fun c am' bp' => genCacheKey h fuel c am' bp')
              nd attrs [.kstr id_, .kcls nd.clsName] am1 bp
            (some (ktup r.1), r.2.1, r.2.2)

/-- The `CacheKey` value: `(key, bindparams)`. -/
structure CacheKey where
  key : KElem
  bindparams : List Nat
deriving Repr, DecidableEq

/-- `CacheKey.__eq__`: equality is decided purely on the key tuple. -/
def CacheKey.eqKey (a b : CacheKey) : Bool :=
  decide (a.key = b.key)

/-- `HasCacheKey._generate_cache_key`: run the walk with a fresh anon map
and bindparams list; return `None` when the NO_CACHE sentinel was set. -/
def generateCacheKey (h : Heap) (root : Nat) : Option CacheKey :=
  let r := genCacheKey h (h.length + 1) root ⟨[], 0, false⟩ []
  if r.2.1.noCache then none
  else
    match r.1 with
    | some k => some ⟨k, r.2.2⟩
    | none => none

/-- Keyword options of `TraversalComparatorStrategy.compare` (the
`use_proxies` strategy selection is outside the claims modelled here). -/
structure CompareOpts where
  compareAnnotations : Bool := false
  compareKeys : Bool := true
  compareValues : Bool := true
deriving Repr, DecidableEq

/-- A work-queue entry: a pair of optional node references (Python
`zip_longest` fills missing sides with `None`). -/
abbrev QPair := Option Nat × Option Nat

/-- `util.zip_longest` with a `None` fill value. -/
def zipLongest2 {a b : Type} : List a → List b → List (Option a × Option b)
  | [], ys => ys.map (fun y => (none, some y))
  | x :: xs, [] => (some x, none) :: zipLongest2 xs []
  | x :: xs, y :: ys => (some x, some y) :: zipLongest2 xs ys

/-- Short-circuit Python `and` over possibly-diverging inner comparisons. -/
def oand (x : Option Bool) (y : Unit → Option Bool) : Option Bool :=
  match x with
  | none => none
  | some false => some false
  | some true => y ()

/-- Short-circuit Python `or` over possibly-diverging inner comparisons. -/
def oor (x : Option Bool) (y : Unit → Option Bool) : Option Bool :=
  match x with
  | none => none
  | some true => some true
  | some false => y ()

/-- The inner scan of `_compare_unordered_sequences`: for one left element,
find the first remaining right candidate that compares equal under the
recursive predicate (`none` propagates a diverging/raising inner
comparison). -/
def findFirstMatch (inner : Nat → Nat → Option Bool) (c : Nat) :
    List Nat → Option (Option Nat)
  | [] => some none
  | cand :: rest =>
    match inner c cand with
    | none => none
    | some true => some (some cand)
    | some false => findFirstMatch inner c rest

/-- First-occurrence deduplication, modelling `set(seq2)` built from a
sequence of objects (identity-keyed); Python's set iteration order is
unspecified and is modelled as first-occurrence order. -/
def dedupAux (seen : List Nat) : List Nat → List Nat
  | [] => []
  | x :: xs => if x ∈ seen then dedupAux seen xs else x :: dedupAux (x :: seen) xs

def dedupIds (l : List Nat) : List Nat :=
  dedupAux [] l

/-- The greedy loop of `_compare_unordered_sequences`: for each element of
`seq1` in order, scan `set(seq2).difference(completed)` and keep the first
candidate accepted by the recursive comparison.  Returns the `completed`
set (as a duplicate-free list). -/
def greedyLoop (inner : Nat → Nat → Option Bool) (seq2 : List Nat) :
    List Nat → List Nat → Option (List Nat)
  | [], completed => some completed
  | c :: rest, completed =>
    match findFirstMatch inner c
        ((dedupIds seq2).filter (fun o => decide (o ∉ completed))) with
    | none => none
    | some (some o) => greedyLoop inner seq2 rest (completed ++ [o])
    | some none => greedyLoop inner seq2 rest completed

/-- `TraversalComparatorStrategy._compare_unordered_sequences`: greedy
bipartite matching; success requires
`len(completed) == len(seq1) == len(seq2)`.  A `None` second sequence with
a present first sequence would raise in Python (`set(None)`) and is
modelled as `none`. -/
def compareUnorderedSequences (inner : Nat → Nat → Option Bool) :
    Option (List Nat) → Option (List Nat) → Option Bool
  | none, seq2 => some (decide (seq2 = none))
  | some _, none => none
  | some s1, some s2 =>
    match greedyLoop inner s2 s1 [] with
    | none => none
    | some completed =>
      some (decide (completed.length = s1.length ∧ s1.length = s2.length))

/-- Result of a `compare_<visit_name>` override: the COMPARE_FAILED
sentinel, the SKIP_TRAVERSE sentinel, or the collection of attribute names
already accounted for (the absent-override case is `handled []`). -/
inductive OverRes where
  | failed
  | skip
  | handled (names : List String)
deriving Repr, DecidableEq

/-- View a clause collection attribute as an optional sequence. -/
def AttrVal.asSeq : AttrVal → Option (List Nat)
  | .nodes ids => some ids
  | _ => none

/-- `TraversalComparatorStrategy.compare_clauselist`: same operator by
identity; associative operators compare their operand lists as unordered
sequences, non-associative ones leave `clauses` to the generic walk. -/
def compareClauselist (inner : Nat → Nat → Option Bool)
    (lnd rnd : NodeData) : Option OverRes :=
  match lnd.attr ("operator"), rnd.attr ("operator") with
  | .op lop, .op rop =>
    if lop = rop then
      if lop.associative then
        match compareUnorderedSequences inner
            (lnd.attr ("clauses")).asSeq (rnd.attr ("clauses")).asSeq with
        | none => none
        | some true => some (.handled ["operator", "clauses"])
        | some false => some .failed
      else some (.handled ["operator"])
    else some .failed
  | _, _ => some .failed

/-- `TraversalComparatorStrategy.compare_binary`: same operator (`==`);
commutative operators accept the straight or the swapped pairing of the
operands via fresh inner comparisons. -/
def compareBinary (inner : Nat → Nat → Option Bool)
    (lnd rnd : NodeData) : Option OverRes :=
  match lnd.attr ("operator"), rnd.attr ("operator") with
  | .op lop, .op rop =>
    if lop = rop then
      if lop.commutative then
        match lnd.attr ("left"), lnd.attr ("right"),
              rnd.attr ("left"), rnd.attr ("right") with
        | .node ll, .node lr, .node rl, .node rr =>
          match oor (oand (inner ll rl) (fun _ => inner lr rr))
              (fun _ => oand (inner ll rr) (fun _ => inner lr rl)) with
          | none => none
          | some true => some (.handled ["operator", "negate", "left", "right"])
          | some false => some .failed
        | _, _, _, _ => some .failed
      else some (.handled ["operator", "negate"])
    else some .failed
  | _, _ => some .failed

/-- `TraversalComparatorStrategy.compare_bindparam`: turns the
`compare_keys` / `compare_values` options into an omit list. -/
def bindparamOmit (opts : CompareOpts) : List String :=
  (if opts.compareValues then [] else ["callable", "value"]) ++
    (if opts.compareKeys then [] else ["key"])

/-- Look up the per-visit-name override (`compare_<visit_name>`); an absent
override accounts for no attributes. -/
def overrideFor (opts : CompareOpts) (inner : Nat → Nat → Option Bool)
    (lnd rnd : NodeData) : Option OverRes :=
  if lnd.visitName = "clauselist" then compareClauselist inner lnd rnd
  else if lnd.visitName = "binary" then compareBinary inner lnd rnd
  else if lnd.visitName = "bindparam" then some (.handled (bindparamOmit opts))
  else some (.handled [])

/-- Dispatch one schema attribute during the generic walk: immediate kinds
return their verdict, child kinds return the pairs to enqueue.
`visit_unknown_structure` raises `NotImplementedError` and is modelled as
`none`. -/
def attrCompare (inner : Nat → Nat → Option Bool) (kind : TKind)
    (lobj robj : AttrVal) : Option (Bool × List QPair) :=
  match kind with
  | .clauseelement =>
    (match lobj, robj with
     | .node x, .node y => some (true, [(some x, some y)])
     | _, _ => some (false, []))
  | .tstr | .plainObj =>
    -- visit_string / visit_plain_obj: `left == right`.
    some (decide (lobj = robj), [])
  | .oper =>
    -- visit_operator: `left is right`.
    (match lobj, robj with
     | .op a, .op b => some (decide (a = b), [])
     | _, _ => some (false, []))
  | .ceList | .ceTuple =>
    -- visit_clauseelement_list / _tuple: enqueue zip_longest pairs.
    (match lobj, robj with
     | .nodes xs, .nodes ys => some (true, zipLongest2 xs ys)
     | _, _ => some (false, []))
  | .ceSet =>
    (match compareUnorderedSequences inner lobj.asSeq robj.asSeq with
     | none => none
     | some b => some (b, []))
  | .unknownStructure => none

/-- The generic lock-step schema walk of `compare` (the `for ... in
util.zip_longest(left._traverse_internals, right._traverse_internals)`
loop): skip `_annotations` unless requested, fail on schema-shape
mismatches, skip override-handled names, apply the per-kind dispatch, and
collect the pairs pushed onto the work queue. -/
def compareAttrsWalk (opts : CompareOpts) (inner : Nat → Nat → Option Bool)
    (lnd rnd : NodeData) (handled : List String) :
    List (Option (String × TKind) × Option (String × TKind)) →
    Option (Bool × List QPair)
  | [] => some (true, [])
  | (lp, rp) :: rest =>
    if ¬opts.compareAnnotations ∧
        ((lp.map Prod.fst) = some "_annotations" ∨
          (rp.map Prod.fst) = some "_annotations") then
      compareAttrsWalk opts inner lnd rnd handled rest
    else if (lp.map Prod.fst) ≠ (rp.map Prod.fst) ∨
        (lp.map Prod.snd) ≠ (rp.map Prod.snd) then
      some (false, [])
    else
      match lp with
      | none => some (false, [])
      | some (aname, kind) =>
        if aname ∈ handled then compareAttrsWalk opts inner lnd rnd handled rest
        else
          let lobj := lnd.attr aname
          let robj := rnd.attr aname
          if lobj = .vnone then
            if robj ≠ .vnone then some (false, [])
            else compareAttrsWalk opts inner lnd rnd handled rest
          else
            match attrCompare inner kind lobj robj with
            | none => none
            | some (b, ps) =>
              if b then
                match compareAttrsWalk opts inner lnd rnd handled rest with
                | none => none
                | some (b2, ps2) => some (b2, ps ++ ps2)
              else some (false, ps)

/-- Process one popped pair of distinct, unvisited node references:
visit-name check, override dispatch, then the generic schema walk.
Returns the local verdict together with the enqueued child pairs; `none`
models an inner comparison that raises or diverges. -/
def processPair (h : Heap) (opts : CompareOpts)
    (inner : Nat → Nat → Option Bool) (li ri : Nat) :
    Option (Bool × List QPair) :=
  match h.get? li, h.get? ri with
  | some lnd, some rnd =>
    if lnd.visitName = rnd.visitName then
      match overrideFor opts inner lnd rnd with
      | none => none
      | some .failed => some (false, [])
      | some .skip => some (true, [])
      | some (.handled names) =>
        compareAttrsWalk opts inner lnd rnd names
          (zipLongest2 (lnd.schema.getD []) (rnd.schema.getD []))
    else some (false, [])
  | _, _ => some (false, [])

/-- The observable trace of one comparator run: the Python boolean result
(`none` when the run raises or exceeds the fuel), together with the
sequence of pairs appended to the work queue, the sequence of pairs popped
from it, and the sequence of pairs that were actually expanded (reached
processing past the visited-set check). -/
structure CmpRes where
  res : Option Bool
  pushed : List QPair
  popped : List QPair
  processed : List (Nat × Nat)
deriving Repr, DecidableEq

/-- The iterative work-queue loop of `TraversalComparatorStrategy.compare`:
pop pairs FIFO; identical pairs pass trivially; a half-`None` pair fails;
already-visited pairs are skipped; otherwise the pair is recorded as
visited and expanded, its child pairs appended to the queue.  One unit of
fuel is spent per pop, and nested comparator instances
(`compare_inner`) run on the remaining fuel. -/
def compareLoop (h : Heap) (opts : CompareOpts) :
    Nat → List QPair → List (Nat × Nat) → CmpRes
  | 0, _, _ => ⟨none, [], [], []⟩
  | _ + 1, [], _ => ⟨some true, [], [], []⟩
  | fuel + 1, (l, r) :: rest, visited =>
    if l = r then
      let c := compareLoop h opts fuel rest visited
      ⟨c.res, c.pushed, (l, r) :: c.popped, c.processed⟩
    else
      match l, r with
      | none, _ => ⟨some false, [], [(none, r)], []⟩
      | some li, none => ⟨some false, [], [(some li, none)], []⟩
      | some li, some ri =>
        if (li, ri) ∈ visited then
          let c := compareLoop h opts fuel rest visited
          ⟨c.res, c.pushed, (some li, some ri) :: c.popped, c.processed⟩
        else
          match processPair h opts
              (fun x y => (compareLoop h opts fuel [(some x, some y)] []).res)
              li ri with
          | none => ⟨none, [], [(some li, some ri)], [(li, ri)]⟩
          | some (ok, pushes) =>
            if ok then
              let c := compareLoop h opts fuel (rest ++ pushes)
                ((li, ri) :: visited)
              ⟨c.res, pushes ++ c.pushed, (some li, some ri) :: c.popped,
                (li, ri) :: c.processed⟩
            else ⟨some false, pushes, [(some li, some ri)], [(li, ri)]⟩

/-- Fuel budget for a whole comparator run over heap `h`. -/
def bigFuel (h : Heap) : Nat :=
  (h.length + 2) ^ 3

/-- One full comparator run seeded with `(l, r)` (the initial
`stack.append((obj1, obj2))` is recorded as the first enqueue). -/
def compareNodes (h : Heap) (opts : CompareOpts) (l r : Nat) : CmpRes :=
  let c := compareLoop h opts (bigFuel h) [(some l, some r)] []
  ⟨c.res, (some l, some r) :: c.pushed, c.popped, c.processed⟩

/-- The exposed `compare(obj1, obj2)` entry point with default options. -/
def compareMain (h : Heap) (l r : Nat) : Option Bool :=
  (compareNodes h {} l r).res

/-- A legacy dual-typed slot in a setup-join tuple: a plain string or a
clause-element reference. -/
inductive JoinElem where
  | jstr (s : String)
  | jnode (id : Nat)
deriving Repr, DecidableEq

/-- One `(target, onclause, from_, flags)` entry of a setup-join tuple
attribute. -/
structure JoinEntry where
  target : Option JoinElem := none
  onclause : Option JoinElem := none
  fromClause : Option JoinElem := none
  flags : List (String × String) := []
deriving Repr, DecidableEq

/-- `_CopyInternals.visit_setup_join_tuple`: each non-`None` slot among
target / onclause / from is passed to the injected clone function (with no
string special-case); the flags mapping is carried over unchanged. -/
def copyVisitSetupJoinTuple (clone : JoinElem → JoinElem)
    (element : List JoinEntry) : List JoinEntry :=
  element.map fun e =>
    { target := e.target.map clone,
      onclause := e.onclause.map clone,
      fromClause := e.fromClause.map clone,
      flags := e.flags }

/-- `_GetChildren.visit_setup_join_tuple`: yield from, then the target
unless it is a string, then the onclause unless it is `None` or a string
(`_flatten_clauseelement` is the identity for plain clause elements). -/
def childrenSetupJoinTuple (element : List JoinEntry) : List JoinElem :=
  element.flatMap fun e =>
    (match e.fromClause with
     | some f => [f]
     | none => []) ++
    (match e.target with
     | some (.jnode i) => [.jnode i]
     | _ => []) ++
    (match e.onclause with
     | some (.jnode i) => [.jnode i]
     | _ => [])

/-- The node references a schema entry makes the key-generation walk
recurse into: a present child attribute, or the members of a present
list / tuple / set attribute. -/
def edgeTargets (nd : NodeData) (p : String × TKind) : List Nat :=
  match p.2, nd.attr p.1 with
  | .clauseelement, .node c => [c]
  | .ceList, .nodes ids => ids
  | .ceTuple, .nodes ids => ids
  | .ceSet, .nodes ids => ids
  | _, _ => []

/-- `v` is a traversal child of `u` in heap `h`. -/
def ChildOf (h : Heap) (u v : Nat) : Prop :=
  ∃ nd attrs p, h.get? u = some nd ∧ nd.isBind = false ∧
    nd.schema = some attrs ∧ p ∈ attrs ∧ v ∈ edgeTargets nd p

/-- Reachability along traversal edges. -/
inductive Reaches (h : Heap) : Nat → Nat → Prop
  | refl (n : Nat) : Reaches h n n
  | step {n u v : Nat} : Reaches h n u → ChildOf h u v → Reaches h n v

/-- A node is uncacheable by itself: its class declares no cacheable
schema at all, or its schema contains an unknown-structure attribute whose
live value is present and truthy (`visit_unknown_structure` only runs
under the `if obj is not None` / `elif obj:` guards). -/
def BadNode (h : Heap) (u : Nat) : Prop :=
  ∃ nd, h.get? u = some nd ∧ nd.isBind = false ∧
    (nd.schema = none ∨
      ∃ attrs p, nd.schema = some attrs ∧ p ∈ attrs ∧
        p.2 = .unknownStructure ∧ (nd.attr p.1).truthy = true)

/-- A scalar leaf node carrying one string attribute named `p`. -/
def leafNode (v : String) : NodeData :=
  { visitName := "leaf", clsName := "L",
    schema := some [("p", .tstr)], attrs := [("p", .obj v)] }

/-- A node whose only schema entry is named `_annotations`: during
comparison the generic walk skips any schema position in which either side
is named `_annotations` (unless `compare_annotations` is set), so this node
compares equal to any single-attribute node of the same visit name. -/
def wildNode (v : String) : NodeData :=
  { visitName := "leaf", clsName := "W",
    schema := some [("_annotations", .tstr)],
    attrs := [("_annotations", .obj v)] }

/-- A clause-list node (`visit_name "clauselist"`). -/
def clNode (o : Op) (cs : List Nat) : NodeData :=
  { visitName := "clauselist", clsName := "CL",
    schema := some [("clauses", .ceList), ("operator", .oper)],
    attrs := [("clauses", .nodes cs), ("operator", .op o)] }

/-- A binary-expression node (`visit_name "binary"`). -/
def binNode (o : Op) (l r : Nat) : NodeData :=
  { visitName := "binary", clsName := "BIN",
    schema := some [("left", .clauseelement), ("right", .clauseelement),
      ("operator", .oper), ("negate", .oper)],
    attrs := [("left", .node l), ("right", .node r),
      ("operator", .op o), ("negate", .op o)] }

def opPlus : Op := { name := "add", commutative := true, associative := true }

def opMinus : Op := { name := "sub" }

/-- C2 counterexample heap: two unordered-set parents whose element sets
admit a perfect matching that the greedy scan misses. -/
def hC2 : Heap :=
  [leafNode "h", leafNode "g", wildNode "z", leafNode "h",
   { visitName := "container", clsName := "C",
     schema := some [("s", .ceSet)], attrs := [("s", .nodes [0, 1])] },
   { visitName := "container", clsName := "C",
     schema := some [("s", .ceSet)], attrs := [("s", .nodes [2, 3])] }]

/-- C5 counterexample heap: associative clause lists over a permuted
operand chain with a non-transitive recursive equality. -/
def hC5 : Heap :=
  [leafNode "x", wildNode "z", leafNode "y",
   clNode opPlus [0, 1, 2], clNode opPlus [1, 2, 0]]

/-- Pairwise-distinct leaves under an associative (resp. non-associative)
list operator, with permuted operand lists. -/
def hC5a : Heap :=
  [leafNode "x", leafNode "y", leafNode "z",
   clNode opPlus [0, 1, 2], clNode opPlus [1, 2, 0]]

def hC5n : Heap :=
  [leafNode "x", leafNode "y", leafNode "z",
   clNode opMinus [0, 1, 2], clNode opMinus [1, 2, 0]]

/-- C6 counterexample heap: an associative clause list repeating the same
child instance, against one with two distinct but equal children. -/
def hC6 : Heap :=
  [leafNode "h", leafNode "h", clNode opPlus [0, 0], clNode opPlus [0, 1]]

/-- C4 heaps: commutative and non-commutative binaries over swapped
operands. -/
def hC4 : Heap :=
  [leafNode "x", leafNode "y", binNode opPlus 0 1, binNode opPlus 1 0]

def hC4n : Heap :=
  [leafNode "x", leafNode "y", binNode opMinus 0 1, binNode opMinus 1 0]

/-- C9 counterexample heap: both parents reference the same child twice,
so the pair (0, 1) is enqueued twice. -/
def hC9 : Heap :=
  [leafNode "h", leafNode "h",
   { visitName := "pair", clsName := "P",
     schema := some [("a", .clauseelement), ("b", .clauseelement)],
     attrs := [("a", .node 0), ("b", .node 0)] },
   { visitName := "pair", clsName := "P",
     schema := some [("a", .clauseelement), ("b", .clauseelement)],
     attrs := [("a", .node 1), ("b", .node 1)] }]

/-- C1 counterexample heap: an unknown-structure attribute whose value is
`None`. -/
def hC1 : Heap :=
  [{ visitName := "u", clsName := "W",
     schema := some [("w", .unknownStructure)], attrs := [("w", .vnone)] }]

/-- C1 witness heap: a truthy unknown-structure attribute nested two
levels below the root. -/
def hC1w : Heap :=
  [{ visitName := "u", clsName := "W",
     schema := some [("w", .unknownStructure)],
     attrs := [("w", .obj "boom")] },
   { visitName := "mid", clsName := "M",
     schema := some [("c", .clauseelement)], attrs := [("c", .node 0)] },
   { visitName := "root", clsName := "R",
     schema := some [("c", .clauseelement)], attrs := [("c", .node 1)] }]

/-- C3 counterexample heap: a parent referencing an attribute-less node
twice; the node's full structural key is already the bare two-slot pair. -/
def hC3 : Heap :=
  [{ visitName := "e", clsName := "E", schema := some [], attrs := [] },
   { visitName := "p", clsName := "P",
     schema := some [("x", .clauseelement), ("y", .clauseelement)],
     attrs := [("x", .node 0), ("y", .node 0)] }]

/-- C10 witness heap: one bindparam leaf referenced twice. -/
def hC10 : Heap :=
  [{ visitName := "bindparam", clsName := "B", schema := some [],
     isBind := true, bindKey := "k" },
   { visitName := "p", clsName := "P",
     schema := some [("x", .clauseelement), ("y", .clauseelement)],
     attrs := [("x", .node 0), ("y", .node 0)] }]

/-- Number of elements of an encoded key tuple. -/
def KElem.tupLen : KElem → Nat
  | .kcons _ t => 1 + t.tupLen
  | _ => 0

/-- A clone function that marks everything it is applied to. -/
def cloneMark : JoinElem → JoinElem
  | .jstr s => .jstr (s ++ "*")
  | .jnode i => .jnode (i + 100)

/-- C1 counterexample: a root whose schema contains an
opaque/unknown-kind attribute, yet whose live value is `None`, still gets
a cache key — `visit_unknown_structure` only runs for present values, so
the claim's hypothesis (an unknown-kind attribute anywhere in the schema)
does not suffice for a `None` result. -/
theorem cexC1 :
    ((hC1.get? 0).getD {}).schema = some [("w", .unknownStructure)] ∧
    (generateCacheKey hC1 0).isSome = true := by
  decide

/-- C2 counterexample: the parents' unordered-set attributes are
`[0, 1]` and `[2, 3]`; the pairing 0↔3, 1↔2 is a perfect matching under
the recursive equality (both pairs compare `true`, sizes agree), yet the
structural comparator reports the parents unequal — the greedy scan
commits 0 to the wildcard 2 and leaves 1 unmatched. -/
theorem cexC2 :
    ((hC2.get? 4).getD {}).attr ("s") = .nodes [0, 1] ∧
    ((hC2.get? 5).getD {}).attr ("s") = .nodes [2, 3] ∧
    compareMain hC2 0 3 = some true ∧
    compareMain hC2 1 2 = some true ∧
    compareMain hC2 4 5 = some false := by
  decide

/-- C3 counterexample: for a shared node with no attribute fragments, the
second occurrence's key fragment equals the node's full structural key
(both are the bare two-element pair), so it is not strictly shorter. -/
theorem cexC3 :
    generateCacheKey hC3 1 =
      some ⟨ktup [.kstr "0", .kcls "P",
        .kstr "x", ktup [.kstr "1", .kcls "E"],
        .kstr "y", ktup [.kstr "1", .kcls "E"]], []⟩ ∧
    (genCacheKey hC3 (hC3.length + 1) 0 ⟨[], 0, false⟩ []).1 =
      some (ktup [.kstr "0", .kcls "E"]) ∧
    ¬((ktup [KElem.kstr "1", KElem.kcls "E"]).tupLen <
        (ktup [KElem.kstr "0", KElem.kcls "E"]).tupLen) := by
  decide

/-- C5 counterexample: `[1, 2, 0]` is a permutation of `[0, 1, 2]` and the
list operator is associative, yet the comparison fails: the greedy
unordered match pairs operand 0 with the wildcard operand 1, operand 1
with operand 2, and leaves operand 2 with no remaining equal candidate. -/
theorem cexC5 :
    ((hC5.get? 3).getD {}).attr ("clauses") = .nodes [0, 1, 2] ∧
    ((hC5.get? 4).getD {}).attr ("clauses") = .nodes [1, 2, 0] ∧
    List.Perm [1, 2, 0] [0, 1, 2] ∧
    opPlus.associative = true ∧
    compareMain hC5 3 4 = some false := by
  decide

/-- C6 counterexample: with an associative clause list that repeats the
same child instance (`[0, 0]` versus `[0, 1]`, where nodes 0 and 1 are
structurally equal), `compare` is not symmetric: the right-hand operand
list is deduplicated by identity (`set(seq2)`), so one direction matches
both left operands while the other runs out of candidates. -/
theorem cexC6 :
    compareMain hC6 2 3 = some true ∧ compareMain hC6 3 2 = some false := by
  decide

/-- C8 counterexample: the structural copier passes a legacy string-typed
target to the clone function instead of preserving it as-is (the
cache-key and child-extraction handlers do special-case strings; the
copier does not). -/
theorem cexC8 :
    copyVisitSetupJoinTuple cloneMark
        [{ target := some (.jstr "tbl"), flags := [("isouter", "x")] }] =
      [{ target := some (.jstr "tbl*"), flags := [("isouter", "x")] }] ∧
    (copyVisitSetupJoinTuple cloneMark
        [{ target := some (.jstr "tbl"), flags := [("isouter", "x")] }]).map
        (fun e => e.target) ≠ [some (JoinElem.jstr "tbl")] := by
  decide

/-- C9 counterexample: with both parents referencing the same child node
twice, the pair (0, 1) is appended to the work queue twice — a pair can be
re-enqueued after having been scheduled; only its expansion is unique. -/
theorem cexC9 :
    (compareNodes hC9 {} 2 3).pushed =
      [(some 2, some 3), (some 0, some 1), (some 0, some 1)] ∧
    ¬(compareNodes hC9 {} 2 3).pushed.Nodup ∧
    (compareNodes hC9 {} 2 3).res = some true := by
  decide

theorem bigFuel_ge (h : Heap) : 8 ≤ bigFuel h := by
  have h1 : 2 ≤ h.length + 2 := by omega
  calc 8 = 2 ^ 3 := by norm_num
  _ ≤ (h.length + 2) ^ 3 := Nat.pow_le_pow_left h1 3

theorem loopRefl (h : Heap) (opts : CompareOpts) (x : Nat) (fuel : Nat)
    (hf : 2 ≤ fuel) : (compareLoop h opts fuel [(some x, some x)] []).res = some true := by
  obtain ⟨m, rfl⟩ : ∃ m, fuel = m + 2 := ⟨fuel - 2, by omega⟩
  simp [compareLoop]

/-- C6: reflexivity holds for every option set — an identical pair passes
the `left is right` check before any override runs.  (Symmetry, the other
half of the original claim, fails: see the counterexample `cexC6`.) -/
theorem thmC6 (h : Heap) (opts : CompareOpts) (x : Nat) :
    (compareNodes h opts x x).res = some true := by
  have h8 := bigFuel_ge h
  have : (compareLoop h opts (bigFuel h) [(some x, some x)] []).res = some true :=
    loopRefl h opts x (bigFuel h) (by omega)
  simpa [compareNodes] using this

/-- C7: `CacheKey` equality is decided purely by the key tuple — equal
tuples are equal regardless of the placeholder lists, and unequal tuples
are unequal regardless of the placeholder lists. -/
theorem thmC7 (k k' : KElem) (bp1 bp2 bp3 bp4 : List Nat) :
    CacheKey.eqKey ⟨k, bp1⟩ ⟨k, bp2⟩ = true ∧
    (k ≠ k' → CacheKey.eqKey ⟨k, bp3⟩ ⟨k', bp4⟩ = false) := by
  refine ⟨by simp [CacheKey.eqKey], fun hne => ?_⟩
  simp [CacheKey.eqKey, hne]

theorem thmC7_witness :
    CacheKey.eqKey ⟨.knil, [1]⟩ ⟨.knil, [2]⟩ = true ∧
    CacheKey.eqKey ⟨.knil, [1]⟩ ⟨.knone, [1]⟩ = false :=
  ⟨(thmC7 .knil .knone [1] [2] [1] [1]).1,
    (thmC7 .knil .knone [1] [2] [1] [1]).2 (by decide)⟩

/-- Unfold one successful expansion step of the work-queue loop. -/
theorem compareLoop_step_ok (h : Heap) (opts : CompareOpts) (m : Nat)
    (li ri : Nat) (rest : List QPair) (visited : List (Nat × Nat))
    (pushes : List QPair)
    (hne : li ≠ ri) (hnv : (li, ri) ∉ visited)
    (hp : processPair h opts
      (fun x y => (compareLoop h opts m [(some x, some y)] []).res) li ri =
        some (true, pushes)) :
    compareLoop h opts (m + 1) ((some li, some ri) :: rest) visited =
      ⟨(compareLoop h opts m (rest ++ pushes) ((li, ri) :: visited)).res,
        pushes ++ (compareLoop h opts m (rest ++ pushes) ((li, ri) :: visited)).pushed,
        (some li, some ri) ::
          (compareLoop h opts m (rest ++ pushes) ((li, ri) :: visited)).popped,
        (li, ri) ::
          (compareLoop h opts m (rest ++ pushes) ((li, ri) :: visited)).processed⟩ := by
  simp [compareLoop, hne, hnv, hp]

/-- Unfold one failing expansion step of the work-queue loop. -/
theorem compareLoop_step_fail (h : Heap) (opts : CompareOpts) (m : Nat)
    (li ri : Nat) (rest : List QPair) (visited : List (Nat × Nat))
    (pushes : List QPair)
    (hne : li ≠ ri) (hnv : (li, ri) ∉ visited)
    (hp : processPair h opts
      (fun x y => (compareLoop h opts m [(some x, some y)] []).res) li ri =
        some (false, pushes)) :
    compareLoop h opts (m + 1) ((some li, some ri) :: rest) visited =
      ⟨some false, pushes, [(some li, some ri)], [(li, ri)]⟩ := by
  simp [compareLoop, hne, hnv, hp]


theorem compareBinary_eval (inner : Nat → Nat → Option Bool) (o : Op)
    (l1 r1 l2 r2 : Nat) (hcomm : o.commutative = true)
    (hcond : oor (oand (inner l1 l2) (fun _ => inner r1 r2))
        (fun _ => oand (inner l1 r2) (fun _ => inner r1 l2)) = some true) :
    compareBinary inner (binNode o l1 r1) (binNode o l2 r2) =
      some (.handled ["operator", "negate", "left", "right"]) := by
  simp only [compareBinary,
    show (binNode o l1 r1).attr ("operator") = .op o from rfl,
    show (binNode o l2 r2).attr ("operator") = .op o from rfl,
    show (binNode o l1 r1).attr ("left") = .node l1 from rfl,
    show (binNode o l1 r1).attr ("right") = .node r1 from rfl,
    show (binNode o l2 r2).attr ("left") = .node l2 from rfl,
    show (binNode o l2 r2).attr ("right") = .node r2 from rfl,
    if_pos rfl, hcomm, if_true, hcond]

theorem overrideFor_binary (opts : CompareOpts) (inner : Nat → Nat → Option Bool)
    (lnd rnd : NodeData) (hv : lnd.visitName = "binary") :
    overrideFor opts inner lnd rnd = compareBinary inner lnd rnd := by
  simp [overrideFor, hv]

theorem processPair_eval (h : Heap) (opts : CompareOpts) (fuel : Nat)
    (li ri : Nat) (lnd rnd : NodeData)
    (h1 : h.get? li = some lnd) (h2 : h.get? ri = some rnd)
    (hv : lnd.visitName = rnd.visitName)
    (hres : (match overrideFor opts
        (fun x y => (compareLoop h opts fuel [(some x, some y)] []).res) lnd rnd with
      | none => none
      | some .failed => some ((false : Bool), ([] : List QPair))
      | some .skip => some (true, [])
      | some (.handled names) =>
        compareAttrsWalk opts
          (fun x y => (compareLoop h opts fuel [(some x, some y)] []).res)
          lnd rnd names
          (zipLongest2 (lnd.schema.getD []) (rnd.schema.getD []))) = res) :
    processPair h opts
      (fun x y => (compareLoop h opts fuel [(some x, some y)] []).res) li ri = res := by
  rw [processPair, h1, h2]
  simp [hv, hres]

theorem lemC4comm (h : Heap) (b1 b2 L R : Nat) (o : Op)
    (h1 : h.get? b1 = some (binNode o L R))
    (h2 : h.get? b2 = some (binNode o R L))
    (hcomm : o.commutative = true)
    (hA : (compareLoop h {} (bigFuel h - 1) [(some L, some R)] []).res ≠ none)
    (hB : (compareLoop h {} (bigFuel h - 1) [(some R, some L)] []).res ≠ none) :
    compareMain h b1 b2 = some true := by
  have h8 := bigFuel_ge h
  by_cases hb : b1 = b2
  · subst hb
    have := loopRefl h {} b1 (bigFuel h) (by omega)
    simpa [compareMain, compareNodes] using this
  · obtain ⟨m, hm⟩ : ∃ m, bigFuel h = m + 2 := ⟨bigFuel h - 2, by omega⟩
    have hm1 : bigFuel h - 1 = m + 1 := by omega
    rw [hm1] at hA hB
    have hLL : (compareLoop h {} (m + 1) [(some L, some L)] []).res = some true :=
      loopRefl h {} L (m + 1) (by omega)
    have hRR : (compareLoop h {} (m + 1) [(some R, some R)] []).res = some true :=
      loopRefl h {} R (m + 1) (by omega)
    set inner : Nat → Nat → Option Bool :=
      fun x y => (compareLoop h {} (m + 1) [(some x, some y)] []).res with hinner
    have hcond : oor (oand (inner L R) (fun _ => inner R L))
        (fun _ => oand (inner L L) (fun _ => inner R R)) = some true := by
      rcases hA' : inner L R with _ | b
      · exact absurd hA' hA
      · rcases b with _ | _
        · simp [oand, oor, hA', hLL, hRR, hinner]
        · rcases hB' : inner R L with _ | b2'
          · exact absurd hB' hB
          · rcases b2' with _ | _
            · simp [oand, oor, hA', hB', hLL, hRR, hinner]
            · simp [oand, oor, hA', hB']
    have hover : overrideFor {} inner (binNode o L R) (binNode o R L) =
        some (.handled ["operator", "negate", "left", "right"]) := by
      rw [overrideFor_binary _ _ _ _ rfl]
      exact compareBinary_eval inner o L R R L hcomm hcond
    have hwalk : compareAttrsWalk {} inner (binNode o L R) (binNode o R L)
        ["operator", "negate", "left", "right"]
        (zipLongest2 ((binNode o L R).schema.getD [])
          ((binNode o R L).schema.getD [])) = some (true, []) := rfl
    have hpp : processPair h {} inner b1 b2 = some (true, []) := by
      apply processPair_eval h {} (m + 1) b1 b2 _ _ h1 h2 rfl
      rw [hover]
      exact hwalk
    show (compareNodes h {} b1 b2).res = some true
    simp only [compareNodes]
    rw [hm]
    rw [compareLoop_step_ok h {} (m + 1) b1 b2 [] [] [] hb (by simp) hpp]
    simp [compareLoop]

theorem compareBinary_eval_nc (inner : Nat → Nat → Option Bool) (o : Op)
    (l1 r1 l2 r2 : Nat) (hcomm : o.commutative = false) :
    compareBinary inner (binNode o l1 r1) (binNode o l2 r2) =
      some (.handled ["operator", "negate"]) := by
  simp only [compareBinary,
    show (binNode o l1 r1).attr ("operator") = .op o from rfl,
    show (binNode o l2 r2).attr ("operator") = .op o from rfl,
    if_pos rfl, hcomm]
  simp

theorem lemC4noncomm (h : Heap) (b1 b2 L R : Nat) (o : Op) (vL vR : String)
    (h1 : h.get? b1 = some (binNode o L R))
    (h2 : h.get? b2 = some (binNode o R L))
    (hL : h.get? L = some (leafNode vL))
    (hR : h.get? R = some (leafNode vR))
    (hcomm : o.commutative = false)
    (hv : vL ≠ vR) (hb : b1 ≠ b2) :
    compareMain h b1 b2 = some false := by
  have h8 := bigFuel_ge h
  have hLR : L ≠ R := by
    intro e; subst e
    rw [hL] at hR
    injection hR with e2
    exact hv (congrArg (fun nd => nd.attr ("p")) e2 |> fun e3 => by
      simpa [leafNode, NodeData.attr] using e3)
  have hLb1 : L ≠ b1 := by
    intro e
    rw [e] at hL
    rw [hL] at h1
    injection h1 with e2
    exact absurd (congrArg NodeData.visitName e2)
      (show ¬("leaf" = "binary") by decide)
  obtain ⟨m, hm⟩ : ∃ m, bigFuel h = m + 2 := ⟨bigFuel h - 2, by omega⟩
  set innerM : Nat → Nat → Option Bool :=
    fun x y => (compareLoop h {} (m + 1) [(some x, some y)] []).res with hinner
  have hover : overrideFor {} innerM (binNode o L R) (binNode o R L) =
      some (.handled ["operator", "negate"]) := by
    rw [overrideFor_binary _ _ _ _ rfl]
    exact compareBinary_eval_nc innerM o L R R L hcomm
  have hwalk : compareAttrsWalk {} innerM (binNode o L R) (binNode o R L)
      ["operator", "negate"]
      (zipLongest2 ((binNode o L R).schema.getD [])
        ((binNode o R L).schema.getD [])) =
      some (true, [(some L, some R), (some R, some L)]) := rfl
  have hpp : processPair h {} innerM b1 b2 =
      some (true, [(some L, some R), (some R, some L)]) := by
    apply processPair_eval h {} (m + 1) b1 b2 _ _ h1 h2 rfl
    rw [hover]
    exact hwalk
  set innerM' : Nat → Nat → Option Bool :=
    fun x y => (compareLoop h {} m [(some x, some y)] []).res with hinner'
  have hwalkLR : compareAttrsWalk {} innerM' (leafNode vL) (leafNode vR) []
      (zipLongest2 ((leafNode vL).schema.getD [])
        ((leafNode vR).schema.getD [])) = some (false, []) := by
    simp [compareAttrsWalk, zipLongest2, attrCompare,
      show (leafNode vL).attr ("p") = .obj vL from rfl,
      show (leafNode vR).attr ("p") = .obj vR from rfl, hv]
  have hppLR : processPair h {} innerM' L R = some (false, []) := by
    apply processPair_eval h {} m L R _ _ hL hR rfl
    have : overrideFor {} innerM' (leafNode vL) (leafNode vR) =
        some (.handled []) := rfl
    rw [this]
    exact hwalkLR
  show (compareNodes h {} b1 b2).res = some false
  simp only [compareNodes]
  rw [hm]
  rw [compareLoop_step_ok h {} (m + 1) b1 b2 [] [] _ hb (by simp) hpp]
  show (compareLoop h {} (m + 1)
    ([] ++ [(some L, some R), (some R, some L)]) [(b1, b2)]).res = some false
  simp only [List.nil_append]
  rw [compareLoop_step_fail h {} m L R [(some R, some L)] [(b1, b2)] [] hLR
    (by intro hmem
        simp only [List.mem_singleton, Prod.mk.injEq] at hmem
        exact hLb1 hmem.1) hppLR]

/-- C4: for two binary nodes over the same operator with swapped operand
references, a commutative operator makes the comparison succeed — the
override accepts the swapped pairing, whose inner comparisons are
identical-object pairs (the two `≠ none` hypotheses rule out a diverging
first, speculative inner comparison).  For a non-commutative operator the
operands are compared positionally, so the swap fails whenever the two
operands are non-equivalent (instantiated as scalar leaves with different
values). -/
theorem thmC4 :
    (∀ (h : Heap) (b1 b2 L R : Nat) (o : Op),
      h.get? b1 = some (binNode o L R) →
      h.get? b2 = some (binNode o R L) →
      o.commutative = true →
      (compareLoop h {} (bigFuel h - 1) [(some L, some R)] []).res ≠ none →
      (compareLoop h {} (bigFuel h - 1) [(some R, some L)] []).res ≠ none →
      compareMain h b1 b2 = some true) ∧
    (∀ (h : Heap) (b1 b2 L R : Nat) (o : Op) (vL vR : String),
      h.get? b1 = some (binNode o L R) →
      h.get? b2 = some (binNode o R L) →
      h.get? L = some (leafNode vL) →
      h.get? R = some (leafNode vR) →
      o.commutative = false → vL ≠ vR → b1 ≠ b2 →
      compareMain h b1 b2 = some false) :=
  ⟨lemC4comm, lemC4noncomm⟩

theorem thmC4_witness :
    compareMain hC4 2 3 = some true ∧ compareMain hC4n 2 3 = some false :=
  ⟨thmC4.1 hC4 2 3 0 1 opPlus rfl rfl rfl (by decide) (by decide),
   thmC4.2 hC4n 2 3 0 1 opMinus "x" "y" rfl rfl rfl rfl rfl
     (by decide) (by decide)⟩

theorem findFirstMatch_some (inner : Nat → Nat → Option Bool) (c : Nat)
    (cands : List Nat) (o : Nat)
    (hf : findFirstMatch inner c cands = some (some o)) :
    o ∈ cands ∧ inner c o = some true := by
  induction cands with
  | nil => simp [findFirstMatch] at hf
  | cons x xs ih =>
    rw [findFirstMatch] at hf
    rcases hx : inner c x with _ | b
    · rw [hx] at hf; exact absurd hf (by simp)
    · rcases b with _ | _
      · rw [hx] at hf
        obtain ⟨h1, h2⟩ := ih hf
        exact ⟨List.mem_cons_of_mem x h1, h2⟩
      · rw [hx] at hf
        simp only [Option.some.injEq] at hf
        subst hf
        exact ⟨List.mem_cons_self x xs, hx⟩

theorem dedupAux_subset (seen l : List Nat) (x : Nat)
    (hx : x ∈ dedupAux seen l) : x ∈ l := by
  induction l generalizing seen with
  | nil => simp [dedupAux] at hx
  | cons y ys ih =>
    rw [dedupAux] at hx
    by_cases hy : y ∈ seen
    · simp only [if_pos hy] at hx
      exact List.mem_cons_of_mem y (ih _ hx)
    · simp only [if_neg hy, List.mem_cons] at hx
      rcases hx with h | h
      · exact h ▸ List.mem_cons_self y ys
      · exact List.mem_cons_of_mem y (ih _ h)

theorem greedyLoop_success (inner : Nat → Nat → Option Bool) (seq2 : List Nat) :
    ∀ (s1 completed comp' : List Nat),
    greedyLoop inner seq2 s1 completed = some comp' →
    ∃ ms, comp' = completed ++ ms ∧ ms.length ≤ s1.length ∧
      (ms.length = s1.length →
        List.Forall₂ (fun c o => inner c o = some true) s1 ms) ∧
      (∀ o ∈ ms, o ∈ seq2 ∧ o ∉ completed) ∧ ms.Nodup := by
  intro s1
  induction s1 with
  | nil =>
    intro completed comp' hg
    rw [greedyLoop] at hg
    simp only [Option.some.injEq] at hg
    exact ⟨[], by simp [hg.symm]⟩
  | cons c rest ih =>
    intro completed comp' hg
    rw [greedyLoop] at hg
    rcases hf : findFirstMatch inner c
        ((dedupIds seq2).filter (fun o => decide (o ∉ completed))) with _ | oo
    · rw [hf] at hg; exact absurd hg (by simp)
    · rcases oo with _ | o
      · rw [hf] at hg
        obtain ⟨ms, he, hlen, hfa, hmem, hnd⟩ := ih completed comp' hg
        refine ⟨ms, he, by simpa using Nat.le_succ_of_le hlen, ?_, hmem, hnd⟩
        intro hl
        exfalso
        simp only [List.length_cons] at hl
        omega
      · rw [hf] at hg
        obtain ⟨hcand, hinner⟩ := findFirstMatch_some inner c _ o hf
        rw [List.mem_filter] at hcand
        obtain ⟨hdedup, hflt⟩ := hcand
        have hnotc : o ∉ completed := of_decide_eq_true hflt
        have hseq2 : o ∈ seq2 := dedupAux_subset [] seq2 o hdedup
        obtain ⟨ms, he, hlen, hfa, hmem, hnd⟩ := ih (completed ++ [o]) comp' hg
        refine ⟨o :: ms, by simpa using he, by simpa using hlen, ?_, ?_, ?_⟩
        · intro hl
          simp only [List.length_cons] at hl
          exact List.Forall₂.cons hinner (hfa (by omega))
        · intro x hx
          rw [List.mem_cons] at hx
          rcases hx with rfl | hx
          · exact ⟨hseq2, hnotc⟩
          · obtain ⟨h1, h2⟩ := hmem _ hx
            exact ⟨h1, fun hc => h2 (List.mem_append_left _ hc)⟩
        · refine List.nodup_cons.mpr ⟨?_, hnd⟩
          intro hc
          exact (hmem _ hc).2 (List.mem_append_right _ (List.mem_singleton.mpr rfl))

/-- C2 (amended): when the unordered-sequence comparison succeeds, the two
sequences have equal lengths and the greedy scan has constructed a perfect
matching — a duplicate-free assignment of one right element to each left
element, each pair related by the recursive equality.  (The converse
direction of the original claim fails: see `cexC2`.) -/
theorem thmC2 (inner : Nat → Nat → Option Bool) (s1 s2 : List Nat)
    (hs : compareUnorderedSequences inner (some s1) (some s2) = some true) :
    s1.length = s2.length ∧
    ∃ ms : List Nat, ms.length = s1.length ∧ ms.Nodup ∧
      (∀ o ∈ ms, o ∈ s2) ∧
      List.Forall₂ (fun c o => inner c o = some true) s1 ms := by
  rw [compareUnorderedSequences] at hs
  rcases hg : greedyLoop inner s2 s1 [] with _ | completed
  · rw [hg] at hs; exact absurd hs (by simp)
  · rw [hg] at hs
    simp only [Option.some.injEq, decide_eq_true_eq] at hs
    obtain ⟨hl1, hl2⟩ := hs
    obtain ⟨ms, he, _, hfa, hmem, hnd⟩ := greedyLoop_success inner s2 s1 [] completed hg
    simp only [List.nil_append] at he
    subst he
    exact ⟨hl2, completed, hl1, hnd, fun o ho => (hmem o ho).1, hfa hl1⟩

theorem thmC2_witness :
    ([1, 2] : List Nat).length = ([2, 1] : List Nat).length ∧
    ∃ ms : List Nat, ms.length = ([1, 2] : List Nat).length ∧ ms.Nodup ∧
      (∀ o ∈ ms, o ∈ ([2, 1] : List Nat)) ∧
      List.Forall₂
        (fun c o => (fun x y => some (decide (x = y))) c o = some true)
        [1, 2] ms :=
  thmC2 (fun x y => some (decide (x = y))) [1, 2] [2, 1] (by decide)

theorem findFirstMatch_self (inner : Nat → Nat → Option Bool) (c : Nat) :
    ∀ cands : List Nat, c ∈ cands →
    (∀ d ∈ cands, d ≠ c → inner c d = some false) →
    inner c c = some true → findFirstMatch inner c cands = some (some c) := by
  intro cands
  induction cands with
  | nil => intro hmem; simp at hmem
  | cons x xs ih =>
    intro hmem hdiff hself
    by_cases hx : x = c
    · subst hx
      rw [findFirstMatch, hself]
    · rw [findFirstMatch, hdiff x (List.mem_cons_self x xs) hx]
      refine ih ?_ (fun d hd => hdiff d (List.mem_cons_of_mem x hd)) hself
      rcases List.mem_cons.mp hmem with rfl | h
      · exact absurd rfl hx
      · exact h

theorem mem_dedupAux (l : List Nat) :
    ∀ (seen : List Nat) (x : Nat), x ∈ l → x ∉ seen → x ∈ dedupAux seen l := by
  induction l with
  | nil => intro seen x hx; simp at hx
  | cons y ys ih =>
    intro seen x hx hseen
    rw [dedupAux]
    by_cases hy : y ∈ seen
    · rw [if_pos hy]
      rcases List.mem_cons.mp hx with rfl | h
      · exact absurd hy hseen
      · exact ih seen x h hseen
    · rw [if_neg hy]
      rcases List.mem_cons.mp hx with rfl | h
      · exact List.mem_cons_self x _
      · by_cases hxy : x = y
        · subst hxy; exact List.mem_cons_self x _
        · refine List.mem_cons_of_mem y (ih (y :: seen) x h ?_)
          intro hc
          rcases List.mem_cons.mp hc with h1 | h1
          · exact hxy h1
          · exact hseen h1

theorem greedyLoop_perm (inner : Nat → Nat → Option Bool) (s2 : List Nat) :
    ∀ (s1rest completed : List Nat),
    (∀ c ∈ s1rest, c ∈ s2 ∧ c ∉ completed) → s1rest.Nodup →
    (∀ c ∈ s1rest, inner c c = some true) →
    (∀ c ∈ s1rest, ∀ d ∈ s2, d ≠ c → inner c d = some false) →
    greedyLoop inner s2 s1rest completed = some (completed ++ s1rest) := by
  intro s1rest
  induction s1rest with
  | nil => intro completed _ _ _ _; simp [greedyLoop]
  | cons c rest ih =>
    intro completed hmem hnd hself hdiff
    obtain ⟨hc2, hcnc⟩ := hmem c (List.mem_cons_self c rest)
    have hcands : c ∈ (dedupIds s2).filter (fun o => decide (o ∉ completed)) := by
      rw [List.mem_filter]
      exact ⟨mem_dedupAux s2 [] c hc2 (by simp), decide_eq_true hcnc⟩
    have hfm : findFirstMatch inner c
        ((dedupIds s2).filter (fun o => decide (o ∉ completed))) =
          some (some c) := by
      refine findFirstMatch_self inner c _ hcands ?_
        (hself c (List.mem_cons_self c rest))
      intro d hd hdc
      rw [List.mem_filter] at hd
      exact hdiff c (List.mem_cons_self c rest) d
        (dedupAux_subset [] s2 d hd.1) hdc
    have hmem' : ∀ x ∈ rest, x ∈ s2 ∧ x ∉ completed ++ [c] := by
      intro x hx
      obtain ⟨h1, h2⟩ := hmem x (List.mem_cons_of_mem c hx)
      refine ⟨h1, ?_⟩
      intro hc
      rcases List.mem_append.mp hc with h3 | h3
      · exact h2 h3
      · rw [List.mem_singleton] at h3
        subst h3
        exact (List.nodup_cons.mp hnd).1 hx
    have hrest := ih (completed ++ [c]) hmem' (List.Nodup.of_cons hnd)
      (fun x hx => hself x (List.mem_cons_of_mem c hx))
      (fun x hx => hdiff x (List.mem_cons_of_mem c hx))
    rw [greedyLoop, hfm]
    show greedyLoop inner s2 rest (completed ++ [c]) = some (completed ++ c :: rest)
    rw [hrest]
    simp

theorem unorderedSeqPerm (inner : Nat → Nat → Option Bool) (s1 s2 : List Nat)
    (hp : List.Perm s2 s1) (hnd : s1.Nodup)
    (hself : ∀ c ∈ s1, inner c c = some true)
    (hdiff : ∀ c ∈ s1, ∀ d ∈ s2, d ≠ c → inner c d = some false) :
    compareUnorderedSequences inner (some s1) (some s2) = some true := by
  have hsub : ∀ c ∈ s1, c ∈ s2 ∧ c ∉ ([] : List Nat) := by
    intro c hc
    exact ⟨hp.mem_iff.mpr hc, by simp⟩
  rw [compareUnorderedSequences,
    greedyLoop_perm inner s2 s1 [] hsub hnd hself hdiff]
  simp [hp.length_eq]

theorem processPairEvalG (h : Heap) (opts : CompareOpts)
    (innerF : Nat → Nat → Option Bool) (li ri : Nat) (lnd rnd : NodeData)
    (res : Option (Bool × List QPair))
    (h1 : h.get? li = some lnd) (h2 : h.get? ri = some rnd)
    (hv : lnd.visitName = rnd.visitName)
    (hres : (match overrideFor opts innerF lnd rnd with
      | none => none
      | some .failed => some ((false : Bool), ([] : List QPair))
      | some .skip => some (true, [])
      | some (.handled names) =>
        compareAttrsWalk opts innerF lnd rnd names
          (zipLongest2 (lnd.schema.getD []) (rnd.schema.getD []))) = res) :
    processPair h opts innerF li ri = res := by
  rw [processPair, h1, h2]
  simp [hv, hres]

theorem walkLeafNe (innerF : Nat → Nat → Option Bool) (vX vY : String)
    (hv : vX ≠ vY) :
    compareAttrsWalk {} innerF (leafNode vX) (leafNode vY) []
      (zipLongest2 ((leafNode vX).schema.getD [])
        ((leafNode vY).schema.getD [])) = some (false, []) := by
  simp [compareAttrsWalk, zipLongest2, attrCompare,
    show (leafNode vX).attr ("p") = .obj vX from rfl,
    show (leafNode vY).attr ("p") = .obj vY from rfl, hv]

theorem processPairLeafNe (h : Heap) (innerF : Nat → Nat → Option Bool)
    (x y : Nat) (vX vY : String)
    (hx : h.get? x = some (leafNode vX)) (hy : h.get? y = some (leafNode vY))
    (hv : vX ≠ vY) :
    processPair h {} innerF x y = some (false, []) := by
  apply processPairEvalG h {} innerF x y _ _ _ hx hy rfl
  rw [show overrideFor {} innerF (leafNode vX) (leafNode vY) =
    some (.handled []) from rfl]
  exact walkLeafNe innerF vX vY hv

theorem leafCompareFalse (h : Heap) (x y : Nat) (vX vY : String) (fuel : Nat)
    (hx : h.get? x = some (leafNode vX)) (hy : h.get? y = some (leafNode vY))
    (hne : x ≠ y) (hv : vX ≠ vY) (hf : 1 ≤ fuel) :
    (compareLoop h {} fuel [(some x, some y)] []).res = some false := by
  obtain ⟨m, rfl⟩ : ∃ m, fuel = m + 1 := ⟨fuel - 1, by omega⟩
  rw [compareLoop_step_fail h {} m x y [] [] [] hne (by simp)
    (processPairLeafNe h _ x y vX vY hx hy hv)]

theorem overrideForCl (opts : CompareOpts) (innerF : Nat → Nat → Option Bool)
    (lnd rnd : NodeData) (hv : lnd.visitName = "clauselist") :
    overrideFor opts innerF lnd rnd = compareClauselist innerF lnd rnd := by
  simp [overrideFor, hv]

theorem compareClauselistEval (innerF : Nat → Nat → Option Bool) (o : Op)
    (l1 l2 : List Nat) (hassoc : o.associative = true)
    (hu : compareUnorderedSequences innerF (some l1) (some l2) = some true) :
    compareClauselist innerF (clNode o l1) (clNode o l2) =
      some (.handled ["operator", "clauses"]) := by
  simp only [compareClauselist,
    show (clNode o l1).attr ("operator") = .op o from rfl,
    show (clNode o l2).attr ("operator") = .op o from rfl,
    if_pos rfl, hassoc, if_true,
    show ((clNode o l1).attr ("clauses")).asSeq = some l1 from rfl,
    show ((clNode o l2).attr ("clauses")).asSeq = some l2 from rfl, hu]

theorem lemC5assoc (h : Heap) (cl1 cl2 : Nat) (o : Op) (l1 l2 : List Nat)
    (vals : Nat → String)
    (h1 : h.get? cl1 = some (clNode o l1))
    (h2 : h.get? cl2 = some (clNode o l2))
    (hassoc : o.associative = true) (hperm : List.Perm l2 l1)
    (hnd : l1.Nodup)
    (hleaf : ∀ i ∈ l1, h.get? i = some (leafNode (vals i)))
    (hinj : ∀ i ∈ l1, ∀ j ∈ l1, vals i = vals j → i = j) :
    compareMain h cl1 cl2 = some true := by
  have h8 := bigFuel_ge h
  by_cases hb : cl1 = cl2
  · subst hb
    have := loopRefl h {} cl1 (bigFuel h) (by omega)
    simpa [compareMain, compareNodes] using this
  · obtain ⟨m, hm⟩ : ∃ m, bigFuel h = m + 2 := ⟨bigFuel h - 2, by omega⟩
    set innerM : Nat → Nat → Option Bool :=
      fun x y => (compareLoop h {} (m + 1) [(some x, some y)] []).res with hinner
    have hu : compareUnorderedSequences innerM (some l1) (some l2) = some true := by
      refine unorderedSeqPerm innerM l1 l2 hperm hnd ?_ ?_
      · intro c _
        exact loopRefl h {} c (m + 1) (by omega)
      · intro c hc d hd hdc
        have hd1 : d ∈ l1 := hperm.mem_iff.mp hd
        refine leafCompareFalse h c d (vals c) (vals d) (m + 1)
          (hleaf c hc) (hleaf d hd1) (fun e => hdc e.symm) ?_ (by omega)
        intro hvv
        exact hdc (hinj c hc d hd1 hvv).symm
    have hover : overrideFor {} innerM (clNode o l1) (clNode o l2) =
        some (.handled ["operator", "clauses"]) := by
      rw [overrideForCl _ _ _ _ rfl]
      exact compareClauselistEval innerM o l1 l2 hassoc hu
    have hwalk : compareAttrsWalk {} innerM (clNode o l1) (clNode o l2)
        ["operator", "clauses"]
        (zipLongest2 ((clNode o l1).schema.getD [])
          ((clNode o l2).schema.getD [])) = some (true, []) := rfl
    have hpp : processPair h {} innerM cl1 cl2 = some (true, []) := by
      apply processPairEvalG h {} innerM cl1 cl2 _ _ _ h1 h2 rfl
      rw [hover]
      exact hwalk
    show (compareNodes h {} cl1 cl2).res = some true
    simp only [compareNodes]
    rw [hm]
    rw [compareLoop_step_ok h {} (m + 1) cl1 cl2 [] [] [] hb (by simp) hpp]
    simp [compareLoop]

/-- C5: for an associative list operator the operand lists are compared as
unordered sequences, so a permutation of the same operands compares equal
whenever each operand recursively equals only itself (instantiated as
scalar leaves with pairwise-distinct values; for overlapping equalities
the greedy match can reject a permutation — see `cexC5`); for a
non-associative operator the operand order is significant and the permuted
list compares unequal. -/
theorem thmC5 :
    (∀ (h : Heap) (cl1 cl2 : Nat) (o : Op) (l1 l2 : List Nat)
      (vals : Nat → String),
      h.get? cl1 = some (clNode o l1) →
      h.get? cl2 = some (clNode o l2) →
      o.associative = true → List.Perm l2 l1 → l1.Nodup →
      (∀ i ∈ l1, h.get? i = some (leafNode (vals i))) →
      (∀ i ∈ l1, ∀ j ∈ l1, vals i = vals j → i = j) →
      compareMain h cl1 cl2 = some true) ∧
    (opMinus.associative = false ∧
      ((hC5n.get? 3).getD {}).attr ("clauses") = .nodes [0, 1, 2] ∧
      ((hC5n.get? 4).getD {}).attr ("clauses") = .nodes [1, 2, 0] ∧
      List.Perm [1, 2, 0] [0, 1, 2] ∧
      compareMain hC5n 3 4 = some false) :=
  ⟨lemC5assoc, by decide⟩

theorem thmC5_witness : compareMain hC5a 3 4 = some true :=
  thmC5.1 hC5a 3 4 opPlus [0, 1, 2] [1, 2, 0]
    (fun i => if i = 0 then "x" else if i = 1 then "y" else "z")
    rfl rfl rfl (by decide) (by decide) (by decide) (by decide)

theorem loopFifo (h : Heap) (opts : CompareOpts) :
    ∀ (fuel : Nat) (q : List QPair) (v : List (Nat × Nat)),
    ∃ t, (compareLoop h opts fuel q v).popped ++ t =
      q ++ (compareLoop h opts fuel q v).pushed := by
  intro fuel
  induction fuel with
  | zero => intro q v; exact ⟨q, by simp [compareLoop]⟩
  | succ fuel ih =>
    intro q v
    match q with
    | [] => exact ⟨[], by simp [compareLoop]⟩
    | (l, r) :: rest =>
      by_cases hlr : l = r
      · obtain ⟨t, ht⟩ := ih rest v
        refine ⟨t, ?_⟩
        simp only [compareLoop, if_pos hlr, List.cons_append, List.append_assoc]
        rw [ht]
      · match l, r with
        | none, r =>
          refine ⟨rest, ?_⟩
          simp [compareLoop, if_neg hlr]
        | some li, none =>
          refine ⟨rest, ?_⟩
          simp [compareLoop, if_neg hlr]
        | some li, some ri =>
          have hlr' : li ≠ ri := fun e => hlr (by rw [e])
          by_cases hv : (li, ri) ∈ v
          · obtain ⟨t, ht⟩ := ih rest v
            refine ⟨t, ?_⟩
            simp only [compareLoop, if_neg hlr, if_pos hv, List.cons_append]
            rw [ht]
          · rcases hp : processPair h opts
                (fun x y => (compareLoop h opts fuel [(some x, some y)] []).res)
                li ri with _ | ⟨ok, pushes⟩
            · refine ⟨rest, ?_⟩
              simp [compareLoop, hlr', if_neg hv, hp]
            · rcases ok with _ | _
              · refine ⟨rest ++ pushes, ?_⟩
                simp [compareLoop, hlr', if_neg hv, hp]
              · obtain ⟨t, ht⟩ := ih (rest ++ pushes) ((li, ri) :: v)
                refine ⟨t, ?_⟩
                simp only [compareLoop, if_neg hlr, if_neg hv, hp, if_true,
                  List.cons_append, List.append_assoc]
                rw [ht]
                simp [List.append_assoc]

theorem loopProcessedNodup (h : Heap) (opts : CompareOpts) :
    ∀ (fuel : Nat) (q : List QPair) (v : List (Nat × Nat)),
    (compareLoop h opts fuel q v).processed.Nodup ∧
      ∀ p ∈ (compareLoop h opts fuel q v).processed, p ∉ v := by
  intro fuel
  induction fuel with
  | zero => intro q v; simp [compareLoop]
  | succ fuel ih =>
    intro q v
    match q with
    | [] => simp [compareLoop]
    | (l, r) :: rest =>
      by_cases hlr : l = r
      · simpa only [compareLoop, if_pos hlr] using ih rest v
      · match l, r with
        | none, r => simp [compareLoop, if_neg hlr]
        | some li, none => simp [compareLoop, if_neg hlr]
        | some li, some ri =>
          have hlr' : li ≠ ri := fun e => hlr (by rw [e])
          by_cases hv : (li, ri) ∈ v
          · simpa only [compareLoop, if_neg hlr, if_pos hv] using ih rest v
          · rcases hp : processPair h opts
                (fun x y => (compareLoop h opts fuel [(some x, some y)] []).res)
                li ri with _ | ⟨ok, pushes⟩
            · simp [compareLoop, hlr', if_neg hv, hp, hv]
            · rcases ok with _ | _
              · simp [compareLoop, hlr', if_neg hv, hp, hv]
              · obtain ⟨ihn, ihm⟩ := ih (rest ++ pushes) ((li, ri) :: v)
                constructor
                · simp only [compareLoop, if_neg hlr, if_neg hv, hp, if_true]
                  refine List.nodup_cons.mpr ⟨?_, ihn⟩
                  intro hc
                  exact (ihm _ hc) (List.mem_cons_self _ _)
                · simp only [compareLoop, if_neg hlr, if_neg hv, hp, if_true]
                  intro p hp2
                  rcases List.mem_cons.mp hp2 with rfl | hp3
                  · exact hv
                  · intro hpv
                    exact (ihm _ hp3) (List.mem_cons_of_mem _ hpv)

/-- C9 (amended): the work queue is a FIFO — across one run the sequence
of popped pairs is a prefix of the sequence of enqueued pairs — and the
visited-pairs set (consulted at pop time) ensures each pair is expanded at
most once; a pair can however be re-enqueued while already scheduled (see
`cexC9`), so it is the bounded expansion, not the enqueueing, that
guarantees termination. -/
theorem thmC9 (h : Heap) (opts : CompareOpts) (l r : Nat) :
    (∃ t, (compareNodes h opts l r).popped ++ t =
      (compareNodes h opts l r).pushed) ∧
    (compareNodes h opts l r).processed.Nodup := by
  obtain ⟨t, ht⟩ := loopFifo h opts (bigFuel h) [(some l, some r)] []
  refine ⟨⟨t, ?_⟩, (loopProcessedNodup h opts (bigFuel h) [(some l, some r)] []).1⟩
  simpa [compareNodes] using ht

theorem genKeyAttr1_acc (childKey : ChildKeyFn) (nd : NodeData)
    (aname : String) (kind : TKind) (acc : List KElem) (am : AnonMap)
    (bp : List Nat) :
    ∃ d, (genKeyAttr1 childKey nd aname kind acc am bp).1 = acc ++ d := by
  rw [genKeyAttr1]
  rcases nd.attr aname with _ | v | o | c | ids
  · exact ⟨[], (List.append_nil acc).symm⟩
  all_goals cases kind
  all_goals simp only []
  all_goals first
    | (split
       <;> first
         | exact ⟨[], (List.append_nil acc).symm⟩
         | exact ⟨_, rfl⟩)
    | exact ⟨[], (List.append_nil acc).symm⟩
    | exact ⟨_, rfl⟩

theorem genKeyAttrs_acc (childKey : ChildKeyFn) (nd : NodeData) :
    ∀ (attrs : List (String × TKind)) (acc : List KElem) (am : AnonMap)
      (bp : List Nat),
    ∃ d, (genKeyAttrs childKey nd attrs acc am bp).1 = acc ++ d := by
  intro attrs
  induction attrs with
  | nil => intro acc am bp; exact ⟨[], by simp [genKeyAttrs]⟩
  | cons p rest ih =>
    intro acc am bp
    obtain ⟨aname, kind⟩ := p
    rw [genKeyAttrs]
    obtain ⟨d1, hd1⟩ := genKeyAttr1_acc childKey nd aname kind acc am bp
    obtain ⟨d2, hd2⟩ := ih (genKeyAttr1 childKey nd aname kind acc am bp).1
      (genKeyAttr1 childKey nd aname kind acc am bp).2.1
      (genKeyAttr1 childKey nd aname kind acc am bp).2.2
    exact ⟨d1 ++ d2, by rw [hd2, hd1, List.append_assoc]⟩

/-- Postcondition of one state-transforming step of the key-generation
walk, relating the anon map and bindparams list before and after: the
no-cache flag is monotone, existing anon-map entries persist, the
bindparams list only grows, every node whose identity was newly recorded
has had its traversal children recorded (or the flag raised) and, if
uncacheable by itself, has raised the flag, newly appended placeholders
were fresh, and duplicate-freeness of the placeholder list is preserved. -/
def StepOK (h : Heap) (am am' : AnonMap) (bp bp' : List Nat) : Prop :=
  (am.noCache = true → am'.noCache = true) ∧
  (∀ x s, am.find? x = some s → am'.find? x = some s) ∧
  (∃ d, bp' = bp ++ d) ∧
  (∀ u, am.find? u = none → (am'.find? u).isSome →
      (BadNode h u → am'.noCache = true) ∧
      (∀ v, ChildOf h u v →
        (am'.find? v).isSome ∨ am'.noCache = true)) ∧
  (∀ b, b ∈ bp' → b ∉ bp → am.find? b = none ∧ (am'.find? b).isSome) ∧
  ((bp.Nodup ∧ ∀ b ∈ bp, (am.find? b).isSome) →
    (bp'.Nodup ∧ ∀ b ∈ bp', (am'.find? b).isSome))

theorem stepOK_isSome {h am am' bp bp'} (s : StepOK h am am' bp bp')
    {x : Nat} (hx : (am.find? x).isSome) : (am'.find? x).isSome := by
  obtain ⟨v, hv⟩ := Option.isSome_iff_exists.mp hx
  exact Option.isSome_iff_exists.mpr ⟨v, s.2.1 x v hv⟩

theorem stepOK_pres {h am am' bp bp'} (s : StepOK h am am' bp bp')
    {x : Nat} (hx : (am.find? x).isSome ∨ am.noCache = true) :
    (am'.find? x).isSome ∨ am'.noCache = true := by
  rcases hx with hx | hx
  · exact Or.inl (stepOK_isSome s hx)
  · exact Or.inr (s.1 hx)

theorem stepOK_refl (h : Heap) (am : AnonMap) (bp : List Nat) :
    StepOK h am am bp bp := by
  refine ⟨id, fun x s hs => hs, ⟨[], by simp⟩, ?_, ?_, id⟩
  · intro u h1 h2
    rw [h1] at h2
    exact absurd h2 (by simp)
  · intro b hb hnb
    exact absurd hb hnb

theorem stepOK_flag (h : Heap) (am : AnonMap) (bp : List Nat) :
    StepOK h am am.setNoCache bp bp := by
  refine ⟨fun _ => rfl, fun x s hs => hs, ⟨[], by simp⟩, ?_, ?_, ?_⟩
  · intro u h1 h2
    exact ⟨fun _ => rfl, fun v _ => Or.inr rfl⟩
  · intro b hb hnb
    exact absurd hb hnb
  · intro hps
    exact ⟨hps.1, fun b hb => hps.2 b hb⟩

theorem stepOK_trans (h : Heap) {am1 am2 am3 : AnonMap}
    {bp1 bp2 bp3 : List Nat}
    (s12 : StepOK h am1 am2 bp1 bp2) (s23 : StepOK h am2 am3 bp2 bp3) :
    StepOK h am1 am3 bp1 bp3 := by
  obtain ⟨m12, f12, ⟨d12, hd12⟩, n12, a12, u12⟩ := s12
  obtain ⟨m23, f23, ⟨d23, hd23⟩, n23, a23, u23⟩ := s23
  refine ⟨fun hc => m23 (m12 hc), fun x s hs => f23 x s (f12 x s hs),
    ⟨d12 ++ d23, by rw [hd23, hd12, List.append_assoc]⟩, ?_, ?_, fun hp => u23 (u12 hp)⟩
  · intro u h1 h2
    by_cases h2' : (am2.find? u).isSome
    · obtain ⟨hb, hc⟩ := n12 u h1 h2'
      refine ⟨fun hbad => m23 (hb hbad), ?_⟩
      intro v hv
      rcases hc v hv with hs | hf
      · exact Or.inl (stepOK_isSome ⟨m23, f23, ⟨d23, hd23⟩, n23, a23, u23⟩ hs)
      · exact Or.inr (m23 hf)
    · exact n23 u (Option.not_isSome_iff_eq_none.mp h2') h2
  · intro b hb hnb
    by_cases hb2 : b ∈ bp2
    · obtain ⟨h1, h2⟩ := a12 b hb2 hnb
      exact ⟨h1, stepOK_isSome ⟨m23, f23, ⟨d23, hd23⟩, n23, a23, u23⟩ h2⟩
    · obtain ⟨h1, h2⟩ := a23 b hb hb2
      refine ⟨?_, h2⟩
      rcases hfind : am1.find? b with _ | s
      · rfl
      · rw [f12 b s hfind] at h1
        exact absurd h1 (by simp)

theorem find?_insert (am : AnonMap) (n : Nat) (s : String) (i : Nat)
    (c : Bool) (x : Nat) :
    AnonMap.find? ⟨(n, s) :: am.map, i, c⟩ x =
      if x = n then some s else am.find? x := by
  simp only [AnonMap.find?, List.lookup]
  by_cases hx : x = n
  · simp [hx]
  · have hb : (x == n) = false := beq_eq_false_iff_ne.mpr hx
    simp [hx, hb]

/-- The per-child obligation: the recursive child call is a `StepOK` step
that leaves the child's identity recorded or the flag raised. -/
def ChildKeyOK (h : Heap) (childKey : ChildKeyFn) : Prop :=
  ∀ c am bp, StepOK h am (childKey c am bp).2.1 bp (childKey c am bp).2.2 ∧
    (((childKey c am bp).2.1.find? c).isSome ∨
      (childKey c am bp).2.1.noCache = true)

theorem genKeyList_ok (h : Heap) (childKey : ChildKeyFn)
    (hck : ChildKeyOK h childKey) :
    ∀ (ids : List Nat) (am : AnonMap) (bp : List Nat),
    StepOK h am (genKeyList childKey ids am bp).2.1 bp
      (genKeyList childKey ids am bp).2.2 ∧
    (∀ c ∈ ids, ((genKeyList childKey ids am bp).2.1.find? c).isSome ∨
      (genKeyList childKey ids am bp).2.1.noCache = true) := by
  intro ids
  induction ids with
  | nil =>
    intro am bp
    exact ⟨stepOK_refl h am bp, by simp⟩
  | cons c rest ih =>
    intro am bp
    obtain ⟨s1, hc1⟩ := hck c am bp
    obtain ⟨s2, hcov⟩ := ih (childKey c am bp).2.1 (childKey c am bp).2.2
    rw [genKeyList]
    refine ⟨stepOK_trans h s1 s2, ?_⟩
    intro x hx
    rcases List.mem_cons.mp hx with rfl | hx'
    · exact stepOK_pres s2 hc1
    · exact hcov x hx'

theorem genKeyAttr1_ok (h : Heap) (childKey : ChildKeyFn)
    (hck : ChildKeyOK h childKey) (nd : NodeData) (aname : String)
    (kind : TKind) (acc : List KElem) (am : AnonMap) (bp : List Nat) :
    StepOK h am (genKeyAttr1 childKey nd aname kind acc am bp).2.1 bp
      (genKeyAttr1 childKey nd aname kind acc am bp).2.2 ∧
    (∀ v ∈ edgeTargets nd (aname, kind),
      (((genKeyAttr1 childKey nd aname kind acc am bp).2.1.find? v).isSome ∨
        (genKeyAttr1 childKey nd aname kind acc am bp).2.1.noCache = true)) ∧
    ((kind = .unknownStructure ∧ (nd.attr aname).truthy = true) →
      (genKeyAttr1 childKey nd aname kind acc am bp).2.1.noCache = true) := by
  rw [genKeyAttr1]
  rcases hobj : nd.attr aname with _ | v0 | o0 | c0 | ids0
  case vnone =>
    refine ⟨stepOK_refl h am bp, ?_, ?_⟩
    · intro v hv
      cases kind <;> simp [edgeTargets, hobj] at hv
    · rintro ⟨_, ht⟩
      simp [AttrVal.truthy] at ht
  all_goals cases kind
  all_goals dsimp only
  all_goals try split_ifs with hif
  all_goals first
    | exact ⟨stepOK_flag h am bp, fun v _ => Or.inr rfl, fun _ => rfl⟩
    | (refine ⟨(hck c0 am bp).1, ?_, ?_⟩
       · intro v hv
         simp only [edgeTargets, hobj, List.mem_singleton] at hv
         subst hv
         exact (hck v am bp).2
       · rintro ⟨hk, _⟩
         exact absurd hk (by decide))
    | (refine ⟨(genKeyList_ok h childKey hck ids0 am bp).1, ?_, ?_⟩
       · intro v hv
         simp only [edgeTargets, hobj] at hv
         exact (genKeyList_ok h childKey hck ids0 am bp).2 v hv
       · rintro ⟨hk, _⟩
         exact absurd hk (by decide))
    | (refine ⟨stepOK_refl h am bp, ?_, ?_⟩
       · intro v hv
         first
           | (simp [edgeTargets, hobj] at hv
              done)
           | (simp only [edgeTargets, hobj] at hv
              exact absurd hv (by simp [List.isEmpty_iff.mp hif]))
       · rintro ⟨hk, ht⟩
         first
           | exact absurd hk (by decide)
           | exact absurd ht hif)

theorem genKeyAttrs_ok (h : Heap) (childKey : ChildKeyFn)
    (hck : ChildKeyOK h childKey) (nd : NodeData) :
    ∀ (attrs : List (String × TKind)) (acc : List KElem) (am : AnonMap)
      (bp : List Nat),
    StepOK h am (genKeyAttrs childKey nd attrs acc am bp).2.1 bp
      (genKeyAttrs childKey nd attrs acc am bp).2.2 ∧
    (∀ p ∈ attrs, ∀ v ∈ edgeTargets nd p,
      (((genKeyAttrs childKey nd attrs acc am bp).2.1.find? v).isSome ∨
        (genKeyAttrs childKey nd attrs acc am bp).2.1.noCache = true)) ∧
    ((∃ p, p ∈ attrs ∧ p.2 = .unknownStructure ∧ (nd.attr p.1).truthy = true) →
      (genKeyAttrs childKey nd attrs acc am bp).2.1.noCache = true) := by
  intro attrs
  induction attrs with
  | nil =>
    intro acc am bp
    exact ⟨stepOK_refl h am bp, by simp, by simp⟩
  | cons p rest ih =>
    intro acc am bp
    obtain ⟨aname, kind⟩ := p
    rw [genKeyAttrs]
    obtain ⟨s1, cov1, bad1⟩ := genKeyAttr1_ok h childKey hck nd aname kind acc am bp
    obtain ⟨s2, cov2, bad2⟩ := ih (genKeyAttr1 childKey nd aname kind acc am bp).1
      (genKeyAttr1 childKey nd aname kind acc am bp).2.1
      (genKeyAttr1 childKey nd aname kind acc am bp).2.2
    refine ⟨stepOK_trans h s1 s2, ?_, ?_⟩
    · intro q hq v hv
      rcases List.mem_cons.mp hq with rfl | hq'
      · exact stepOK_pres s2 (cov1 v hv)
      · exact cov2 q hq' v hv
    · rintro ⟨q, hq, hbadq⟩
      rcases List.mem_cons.mp hq with rfl | hq'
      · exact s2.1 (bad1 hbadq)
      · exact bad2 ⟨q, hq', hbadq⟩

theorem genCacheKey_ok (h : Heap) :
    ∀ (fuel n : Nat) (am : AnonMap) (bp : List Nat),
    StepOK h am (genCacheKey h fuel n am bp).2.1 bp
      (genCacheKey h fuel n am bp).2.2 ∧
    (((genCacheKey h fuel n am bp).2.1.find? n).isSome ∨
      (genCacheKey h fuel n am bp).2.1.noCache = true) := by
  intro fuel
  induction fuel with
  | zero =>
    intro n am bp
    exact ⟨stepOK_flag h am bp, Or.inr rfl⟩
  | succ fuel ih =>
    intro n am bp
    have hck : ChildKeyOK h (fun c am' bp' => genCacheKey h fuel c am' bp') :=
      fun c am' bp' => ih c am' bp'
    rw [genCacheKey]
    rcases hget : h.get? n with _ | nd
    · exact ⟨stepOK_flag h am bp, Or.inr rfl⟩
    rcases hfind : am.find? n with _ | s
    case some =>
      exact ⟨stepOK_refl h am bp, Or.inl (by simp [hfind])⟩
    case none =>
    dsimp only
    have hins : ∀ x, (AnonMap.mk ((n, toString am.index) :: am.map)
        (am.index + 1) am.noCache).find? x =
        if x = n then some (toString am.index) else am.find? x :=
      fun x => find?_insert am n (toString am.index) (am.index + 1) am.noCache x
    have hpres1 : ∀ x s, am.find? x = some s →
        (AnonMap.mk ((n, toString am.index) :: am.map)
          (am.index + 1) am.noCache).find? x = some s := by
      intro x s hs
      rw [hins]
      have hxn : x ≠ n := fun e => by rw [e, hfind] at hs; exact absurd hs (by simp)
      rw [if_neg hxn]
      exact hs
    split_ifs with hbind
    · -- bindparam leaf: record identity, append the placeholder
      refine ⟨⟨fun hc => hc, hpres1, ⟨[n], rfl⟩, ?_, ?_, ?_⟩,
        Or.inl (by simp [hins])⟩
      · intro u h1 h2
        rw [hins] at h2
        by_cases hun : u = n
        · subst hun
          constructor
          · rintro ⟨nd', hnd', hnb, _⟩
            rw [hget] at hnd'
            injection hnd' with e
            rw [e] at hbind
            rw [hbind] at hnb
            exact absurd hnb (by simp)
          · rintro v ⟨nd', attrs', q, hnd', hnb, _⟩
            rw [hget] at hnd'
            injection hnd' with e
            rw [e] at hbind
            rw [hbind] at hnb
            exact absurd hnb (by simp)
        · rw [if_neg hun] at h2
          rw [h1] at h2
          exact absurd h2 (by simp)
      · intro b hb hnb
        have hbn : b = n := by
          rcases List.mem_append.mp hb with h1 | h1
          · exact absurd h1 hnb
          · simpa using h1
        subst hbn
        exact ⟨hfind, by simp [hins]⟩
      · rintro ⟨hnd, hall⟩
        constructor
        · refine List.Nodup.append hnd (by simp) ?_
          intro b hb1 hb2
          rw [List.mem_singleton] at hb2
          subst hb2
          have := hall b hb1
          rw [hfind] at this
          exact absurd this (by simp)
        · intro b hb
          rw [hins]
          by_cases hbn : b = n
          · simp [hbn]
          · rw [if_neg hbn]
            rcases List.mem_append.mp hb with h1 | h1
            · exact hall b h1
            · rw [List.mem_singleton] at h1
              exact absurd h1 hbn
    · rcases hschema : nd.schema with _ | attrs
      · refine ⟨⟨fun _ => rfl, ?_, ⟨[], by simp⟩, ?_, ?_, ?_⟩, Or.inr rfl⟩
        · intro x s hs
          simp only [AnonMap.setNoCache]
          exact hpres1 x s hs
        · intro u h1 h2
          exact ⟨fun _ => rfl, fun v _ => Or.inr rfl⟩
        · intro b hb hnb
          exact absurd hb hnb
        · rintro ⟨hnd, hall⟩
          refine ⟨hnd, ?_⟩
          intro b hb
          simp only [AnonMap.setNoCache]
          obtain ⟨sv, hsv⟩ := Option.isSome_iff_exists.mp (hall b hb)
          exact Option.isSome_iff_exists.mpr ⟨_, hpres1 b sv hsv⟩
      · obtain ⟨sW, covW, badW⟩ := genKeyAttrs_ok h _ hck nd attrs
          [.kstr (toString am.index), .kcls nd.clsName]
          ⟨(n, toString am.index) :: am.map, am.index + 1, am.noCache⟩ bp
        refine ⟨⟨fun hc => sW.1 hc, fun x s hs => sW.2.1 x s (hpres1 x s hs),
          sW.2.2.1, ?_, ?_, ?_⟩, ?_⟩
        · intro u h1 h2
          by_cases hun : u = n
          · subst hun
            constructor
            · rintro ⟨nd', hnd', hnb, hbad⟩
              rw [hget] at hnd'
              injection hnd' with e
              subst e
              rcases hbad with hb1 | ⟨attrs', q, hs1, hq, hbq⟩
              · rw [hschema] at hb1
                exact absurd hb1 (by simp)
              · rw [hschema] at hs1
                injection hs1 with e2
                subst e2
                exact badW ⟨q, hq, hbq⟩
            · rintro v ⟨nd', attrs', q, hnd', hnb, hs1, hq, hv⟩
              rw [hget] at hnd'
              injection hnd' with e
              subst e
              rw [hschema] at hs1
              injection hs1 with e2
              subst e2
              exact covW q hq v hv
          · refine sW.2.2.2.1 u ?_ h2
            rw [hins, if_neg hun, h1]
        · intro b hb hnb
          obtain ⟨h1, h2⟩ := sW.2.2.2.2.1 b hb hnb
          refine ⟨?_, h2⟩
          rw [hins] at h1
          by_cases hbn : b = n
          · rw [hbn]
            exact hfind
          · rw [if_neg hbn] at h1
            exact h1
        · rintro ⟨hnd, hall⟩
          refine sW.2.2.2.2.2 ⟨hnd, ?_⟩
          intro b hb
          obtain ⟨sv, hsv⟩ := Option.isSome_iff_exists.mp (hall b hb)
          exact Option.isSome_iff_exists.mpr ⟨_, hpres1 b sv hsv⟩
        · exact Or.inl (stepOK_isSome sW (by simp [hins]))

theorem reachCovered (h : Heap) (root x : Nat) (hr : Reaches h root x) :
    ((genCacheKey h (h.length + 1) root ⟨[], 0, false⟩ []).2.1.find? x).isSome ∨
    (genCacheKey h (h.length + 1) root ⟨[], 0, false⟩ []).2.1.noCache = true := by
  induction hr with
  | refl => exact (genCacheKey_ok h (h.length + 1) root ⟨[], 0, false⟩ []).2
  | step hru hcv ih =>
    rcases ih with hsome | hflag
    · have s := (genCacheKey_ok h (h.length + 1) root ⟨[], 0, false⟩ []).1
      exact (s.2.2.2.1 _ rfl hsome).2 _ hcv
    · exact Or.inr hflag

theorem ktup_tupLen (l : List KElem) : (ktup l).tupLen = l.length := by
  induction l with
  | nil => rfl
  | cons x xs ih =>
    show (KElem.kcons x (ktup xs)).tupLen = xs.length + 1
    rw [KElem.tupLen, ih]
    omega

/-- C1 (amended): if any node reachable from the root along traversal
edges is uncacheable by itself — its type declares no cacheable schema, or
its schema has an opaque/unknown-kind attribute whose live value is
present and truthy (`visit_unknown_structure` runs only under the
`if obj is not None` / `elif obj:` guards; `cexC1` shows that a `None`
value yields a key) — then top-level cache-key generation returns `None`,
regardless of nesting depth. -/
theorem thmC1 (h : Heap) (root x : Nat) (hr : Reaches h root x)
    (hb : BadNode h x) : generateCacheKey h root = none := by
  have hcov := reachCovered h root x hr
  have s := (genCacheKey_ok h (h.length + 1) root ⟨[], 0, false⟩ []).1
  have hflag : (genCacheKey h (h.length + 1) root
      ⟨[], 0, false⟩ []).2.1.noCache = true := by
    rcases hcov with hsome | hflag
    · exact (s.2.2.2.1 x rfl hsome).1 hb
    · exact hflag
  rw [generateCacheKey]
  simp [hflag]

theorem thmC1_witness : generateCacheKey hC1w 2 = none := by
  have r21 : ChildOf hC1w 2 1 :=
    ⟨{ visitName := "root", clsName := "R",
        schema := some [("c", .clauseelement)],
        attrs := [("c", .node 1)] }, [("c", .clauseelement)],
      ("c", .clauseelement), rfl, rfl, rfl, by decide, by decide⟩
  have r10 : ChildOf hC1w 1 0 :=
    ⟨{ visitName := "mid", clsName := "M",
        schema := some [("c", .clauseelement)],
        attrs := [("c", .node 0)] }, [("c", .clauseelement)],
      ("c", .clauseelement), rfl, rfl, rfl, by decide, by decide⟩
  have hbad : BadNode hC1w 0 :=
    ⟨{ visitName := "u", clsName := "W",
        schema := some [("w", .unknownStructure)],
        attrs := [("w", .obj "boom")] }, rfl, rfl,
      Or.inr ⟨[("w", .unknownStructure)], ("w", .unknownStructure),
        rfl, by decide, rfl, by decide⟩⟩
  exact thmC1 hC1w 2 0 (Reaches.step (Reaches.step (Reaches.refl 2) r21) r10)
    hbad

/-- C10: within one key-generation walk, a node identity encountered a
second time returns the bare (anonymized id, class) pair immediately,
with the anon map and the shared placeholders list untouched; as a
consequence the collected placeholders list of a whole walk is
duplicate-free — each distinct placeholder instance is appended exactly
once regardless of how many times it is referenced. -/
theorem thmC10 :
    (∀ (h : Heap) (fuel n : Nat) (am : AnonMap) (bp : List Nat)
      (nd : NodeData) (s : String),
      h.get? n = some nd → am.find? n = some s →
      genCacheKey h (fuel + 1) n am bp =
        (some (ktup [.kstr s, .kcls nd.clsName]), am, bp)) ∧
    (∀ (h : Heap) (root : Nat),
      (genCacheKey h (h.length + 1) root ⟨[], 0, false⟩ []).2.2.Nodup) := by
  constructor
  · intro h fuel n am bp nd s hget hfind
    rw [genCacheKey, hget, hfind]
  · intro h root
    have s := (genCacheKey_ok h (h.length + 1) root ⟨[], 0, false⟩ []).1
    exact (s.2.2.2.2.2 ⟨List.nodup_nil, by simp⟩).1

theorem thmC10_witness :
    genCacheKey hC10 1 0 ⟨[(0, "7")], 1, false⟩ [0] =
      (some (ktup [.kstr "7", .kcls "B"]), ⟨[(0, "7")], 1, false⟩, [0]) ∧
    (genCacheKey hC10 (hC10.length + 1) 1 ⟨[], 0, false⟩ []).2.2.Nodup :=
  ⟨thmC10.1 hC10 0 0 ⟨[(0, "7")], 1, false⟩ [0] _ "7" rfl rfl,
    thmC10.2 hC10 1⟩

/-- C3 (amended): every cache-key tuple produced within a walk begins with
the pair (anonymized id, class token); a subsequent occurrence of an
already-seen node contributes exactly that two-element pair.  The pair is
never longer than the node's full structural key, and is strictly shorter
exactly when the full key carries at least one attribute fragment — for a
node with no fragments the two coincide (`cexC3`), refuting the original
strictly-shorter claim. -/
theorem thmC3 :
    (∀ (h : Heap) (fuel n : Nat) (am : AnonMap) (bp : List Nat) (k : KElem),
      (genCacheKey h fuel n am bp).1 = some k →
      ∃ s c rest, k = ktup (.kstr s :: .kcls c :: rest) ∧
        (ktup [KElem.kstr s, KElem.kcls c]).tupLen ≤ k.tupLen ∧
        ((ktup [KElem.kstr s, KElem.kcls c]).tupLen < k.tupLen ↔ rest ≠ [])) ∧
    (∀ (h : Heap) (fuel n : Nat) (am : AnonMap) (bp : List Nat)
      (nd : NodeData) (s : String),
      h.get? n = some nd → am.find? n = some s →
      (genCacheKey h (fuel + 1) n am bp).1 =
        some (ktup [.kstr s, .kcls nd.clsName])) := by
  constructor
  · intro h fuel n am bp k hk
    match fuel with
    | 0 => simp [genCacheKey] at hk
    | fuel + 1 =>
      rw [genCacheKey] at hk
      rcases hget : h.get? n with _ | nd
      · rw [hget] at hk
        simp at hk
      rw [hget] at hk
      rcases hfind : am.find? n with _ | s0
      case some =>
        rw [hfind] at hk
        simp only [Option.some.injEq] at hk
        refine ⟨s0, nd.clsName, [], hk.symm, ?_, ?_⟩
        · rw [hk]
        · rw [hk]
          simp
      case none =>
      rw [hfind] at hk
      dsimp only at hk
      split_ifs at hk with hbind
      · simp only [Option.some.injEq] at hk
        refine ⟨toString am.index, nd.clsName, [.kstr nd.bindKey],
          hk.symm, ?_, ?_⟩
        · rw [← hk]
          simp [ktup_tupLen]
        · rw [← hk]
          simp [ktup_tupLen]
      · rcases hschema : nd.schema with _ | attrs
        · rw [hschema] at hk
          simp at hk
        · rw [hschema] at hk
          dsimp only at hk
          simp only [Option.some.injEq] at hk
          obtain ⟨d, hd⟩ := genKeyAttrs_acc
            (fun c am' bp' => genCacheKey h fuel c am' bp') nd attrs
            [.kstr (toString am.index), .kcls nd.clsName]
            ⟨(n, toString am.index) :: am.map, am.index + 1, am.noCache⟩ bp
          rw [hd] at hk
          refine ⟨toString am.index, nd.clsName, d, hk.symm, ?_, ?_⟩
          · rw [← hk]
            simp [ktup_tupLen]
          · rw [← hk]
            simp only [ktup_tupLen]
            constructor
            · intro hlt he
              subst he
              simp at hlt
            · intro hne
              have : 0 < d.length := List.length_pos.mpr hne
              simp
              omega
  · intro h fuel n am bp nd s hget hfind
    rw [genCacheKey, hget, hfind]

theorem thmC3_witness :
    (∃ s c rest,
      ktup [KElem.kstr "0", KElem.kcls "W"] =
        ktup (.kstr s :: .kcls c :: rest) ∧
      (ktup [KElem.kstr s, KElem.kcls c]).tupLen ≤
        (ktup [KElem.kstr "0", KElem.kcls "W"]).tupLen ∧
      ((ktup [KElem.kstr s, KElem.kcls c]).tupLen <
          (ktup [KElem.kstr "0", KElem.kcls "W"]).tupLen ↔ rest ≠ [])) ∧
    (genCacheKey hC3 1 0 ⟨[(0, "1")], 2, false⟩ []).1 =
      some (ktup [.kstr "1", .kcls "E"]) := by
  constructor
  · exact thmC3.1 hC1 (hC1.length + 1) 0 ⟨[], 0, false⟩ []
      (ktup [KElem.kstr "0", KElem.kcls "W"]) (by decide)
  · exact thmC3.2 hC3 0 0 ⟨[(0, "1")], 2, false⟩ [] _ "1" rfl rfl

/-- C8 (amended): the structural copier rewrites each
(target, on-condition, source, flag-map) entry by applying the injected
clone function to every non-`None` slot among target / on-condition /
source — including legacy string-typed targets and on-conditions, which
are passed to the clone function rather than preserved as-is (`cexC8`;
the cache-key and child-extraction visitors do special-case strings) —
while `None` slots and the flag-map are carried over verbatim. -/
theorem thmC8 :
    (∀ (clone : JoinElem → JoinElem) (el : List JoinEntry) (i : Nat)
      (e : JoinEntry),
      el.get? i = some e →
      (copyVisitSetupJoinTuple clone el).get? i =
        some ⟨e.target.map clone, e.onclause.map clone,
          e.fromClause.map clone, e.flags⟩) ∧
    (∀ (clone : JoinElem → JoinElem) (el : List JoinEntry) (i : Nat)
      (e : JoinEntry) (s : String),
      el.get? i = some e → e.target = some (.jstr s) →
      ((copyVisitSetupJoinTuple clone el).get? i).map (fun e' => e'.target) =
        some (some (clone (.jstr s)))) := by
  constructor
  · intro clone el i e hi
    rw [copyVisitSetupJoinTuple, List.get?_map, hi]
    rfl
  · intro clone el i e s hi ht
    rw [copyVisitSetupJoinTuple, List.get?_map, hi]
    simp [ht]

theorem thmC8_witness :
    ((copyVisitSetupJoinTuple cloneMark
      [{ target := some (.jstr "tbl"), flags := [("full", "y")] }]).get? 0).map
      (fun e' => e'.target) = some (some (cloneMark (.jstr "tbl"))) :=
  thmC8.2 cloneMark
    [{ target := some (.jstr "tbl"), flags := [("full", "y")] }] 0 _ "tbl"
    rfl rfl
